import Mathlib

/-
Shallow embedding of the radix-tree core of the streamers repository
(src/radix_tree: key.rs, entry.rs, node.rs, tree.rs).

Modelling conventions:
- bytes (u8) are modelled as Nat; no arithmetic is performed on bytes, only
  comparison, so no wrap-around modelling is needed;
- the owned byte buffers (KeyPrefix in key.rs, renamed KeyPre here because
  Lean reserves that spelling) and the borrowed probe views (KeyProbe) are
  both byte lists;
- the sorted Vec of (branch byte, child) pairs with binary search in
  node.rs (NodeChildren) is modelled as a strictly sorted association list;
  lookup, insert and remove are the ordered-list equivalents of the
  binary_search based operations of the source;
- NodeChildren is flattened into the Interior constructor: its children Vec
  and its reserved empty_child slot become two constructor fields;
- panics (expect / unwrap on cases the source argues are unreachable) are
  modelled by returning the scrutinised structure unchanged; each such spot
  is marked with a comment.
-/

abbrev Byte := Nat

/-- key.rs struct KeyPrefix: an owned buffer of key bytes. -/
abbrev KeyPre := List Byte

/-- key.rs struct KeyProbe: a borrowed view of the unmatched key remainder. -/
abbrev KeyProbe := List Byte

/-- key.rs KeyPrefix::pop: the source copies the buffer into a Vec and calls
Vec::pop, which removes and returns the LAST element; none when empty. -/
def KeyPre.pop (p : KeyPre) : Option (Byte × KeyPre) :=
  match p.getLast? with
  | some b => some (b, p.dropLast)
  | none => none

/-- key.rs KeyProbe::pop: split_first, removing and returning the FIRST
byte; none when empty. -/
def KeyProbe.pop (q : KeyProbe) : Option (Byte × KeyProbe) :=
  match q with
  | b :: rest => some (b, rest)
  | [] => none

/-- key.rs KeyPrefix::split_at. -/
def KeyPre.split_at (p : KeyPre) (idx : Nat) : KeyPre × KeyPre :=
  (p.take idx, p.drop idx)

/-- key.rs enum KeyMatchResult. Two constructors are renamed because Lean
reserves their source spellings: PartialMatch and LongerPre. -/
inductive KeyMatchResult where
  | PartialMatch (remainder : KeyProbe)
  | Complete
  | LongerPre (splitIndex : Nat)
  | Incomplete (splitIndex : Nat) (remainder : KeyProbe)
deriving Repr, DecidableEq

/-- key.rs KeyPrefix::diff_index: iterates idx upward from 0 over
0..max(len, len) and returns the first idx at which either buffer has run
out or the bytes at idx disagree; none when no such idx exists (the buffers
are equal). -/
def KeyPre.diff_index (p : KeyPre) (probe : KeyProbe) : Option Nat :=
  (List.range (max p.length probe.length)).find? fun idx =>
    decide (p.length ≤ idx) || decide (probe.length ≤ idx)
      || decide (p.getD idx 0 ≠ probe.getD idx 0)

/-- key.rs KeyPrefix::match_with. The last arm unwraps diff_index in the
source; the none case of diff_index cannot occur there (the buffers would be
equal, hence the first branch would have been taken), so its modelled value
is irrelevant. -/
def KeyPre.match_with (p : KeyPre) (probe : KeyProbe) : KeyMatchResult :=
  if List.isPrefixOf p probe then
    if p.length < probe.length then
      KeyMatchResult.PartialMatch (probe.drop p.length)
    else
      KeyMatchResult.Complete
  else if probe.length < p.length ∧ List.isPrefixOf probe p then
    KeyMatchResult.LongerPre probe.length
  else
    match KeyPre.diff_index p probe with
    | some d =>
      if d = 0 then KeyMatchResult.Incomplete 0 probe
      else KeyMatchResult.Incomplete d (probe.drop d)
    | none => KeyMatchResult.Incomplete 0 probe

/-- entry.rs struct KeyValue: the owned (original key, value) pair. -/
structure KeyValue (V : Type) where
  key : List Byte
  value : V
deriving Repr, DecidableEq

/-- node.rs enum RadixNode. NodeChildren is flattened into Interior:
children is the sorted branch list, empty_child the reserved slot for the
child whose branch key is no-further-bytes. -/
inductive RadixNode (V : Type) where
  | Leaf (entry : KeyValue V) (remaining_key : KeyPre)
  | Interior (pre : KeyPre) (children : List (Byte × RadixNode V))
      (empty_child : Option (RadixNode V))
deriving Repr

/-- node.rs RadixNode::new_leaf. -/
def RadixNode.new_leaf {V : Type} (key : List Byte) (value : V) : RadixNode V :=
  RadixNode.Leaf { key := key, value := value } key

/-- node.rs NodeChildren::get_child for a Some branch byte (binary search on
the sorted list). -/
def find_child {V : Type} (cs : List (Byte × RadixNode V)) (b : Byte) :
    Option (RadixNode V) :=
  match cs with
  | [] => none
  | (c, n) :: rest => if b = c then some n else find_child rest b

/-- node.rs NodeChildren::contains_child. -/
def contains_child {V : Type} (cs : List (Byte × RadixNode V)) (b : Byte) : Bool :=
  (find_child cs b).isSome

/-- node.rs NodeChildren::insert_child for a Some branch byte: ordered
insertion at the binary-search position, returning the replaced child when
the byte was already present. -/
def insert_child_list {V : Type} (cs : List (Byte × RadixNode V)) (b : Byte)
    (n : RadixNode V) : List (Byte × RadixNode V) × Option (RadixNode V) :=
  match cs with
  | [] => ([(b, n)], none)
  | (c, m) :: rest =>
    if b < c then ((b, n) :: (c, m) :: rest, none)
    else if b = c then ((b, n) :: rest, some m)
    else
      let (rest', old) := insert_child_list rest b n
      ((c, m) :: rest', old)

/-- node.rs NodeChildren::remove_child for a Some branch byte. -/
def remove_child_list {V : Type} (cs : List (Byte × RadixNode V)) (b : Byte) :
    List (Byte × RadixNode V) × Option (RadixNode V) :=
  match cs with
  | [] => ([], none)
  | (c, m) :: rest =>
    if b = c then (rest, some m)
    else
      let (rest', old) := remove_child_list rest b
      ((c, m) :: rest', old)

/-- node.rs recursive_insert. The recursion consumes the subtree and
returns its replacement plus the replaced value, mirroring the source's
ownership-passing structure. The source's remove_child / insert_child pair
around the recursive call appears as remove_child_list followed by
insert_child_list on the same byte. Arms marked unreachable model expect
calls of the source. -/
def recursive_insert {V : Type} :
    RadixNode V → KeyProbe → KeyValue V → RadixNode V × Option V
  | RadixNode.Leaf e rem, probe, newE =>
    match KeyPre.match_with rem probe with
    | KeyMatchResult.Complete =>
      -- entry.swap_value: the entry keeps its key, receives the new value
      (RadixNode.Leaf { key := e.key, value := newE.value } rem, some e.value)
    | KeyMatchResult.PartialMatch rp =>
      match KeyProbe.pop rp with
      | some (c, rest) =>
        (RadixNode.Interior rem
          (insert_child_list [] c (RadixNode.Leaf newE rest)).1
          (some (RadixNode.Leaf e [])), none)
      | none => (RadixNode.Leaf e rem, none)  -- unreachable: remainder nonempty
    | KeyMatchResult.LongerPre splitIndex =>
      let (common, difference) := KeyPre.split_at rem splitIndex
      match KeyPre.pop difference with
      | some (c, rest) =>
        (RadixNode.Interior common
          (insert_child_list [] c (RadixNode.Leaf e rest)).1
          (some (RadixNode.Leaf newE [])), none)
      | none => (RadixNode.Leaf e rem, none)  -- unreachable: difference nonempty
    | KeyMatchResult.Incomplete splitIndex rp =>
      let (common, difference) := KeyPre.split_at rem splitIndex
      match KeyPre.pop difference, KeyProbe.pop rp with
      | some (cOld, restOld), some (cNew, restNew) =>
        (RadixNode.Interior common
          (insert_child_list
            (insert_child_list [] cOld (RadixNode.Leaf e restOld)).1
            cNew (RadixNode.Leaf newE restNew)).1
          none, none)
      | _, _ => (RadixNode.Leaf e rem, none)  -- unreachable: both nonempty
  | RadixNode.Interior pre cs ec, probe, newE =>
    match KeyPre.match_with pre probe with
    | KeyMatchResult.Complete =>
      match ec with
      | some old =>
        -- remove_child None, recurse with an empty probe, insert_child None;
        -- the two projections stand for the single destructured call of the
        -- source
        (RadixNode.Interior pre cs (some (recursive_insert old [] newE).1),
          (recursive_insert old [] newE).2)
      | none =>
        (RadixNode.Interior pre cs (some (RadixNode.Leaf newE [])), none)
    | KeyMatchResult.PartialMatch rp =>
      match KeyProbe.pop rp with
      | some (c, rest) =>
        match hrc : (remove_child_list cs c).2 with
        | some old =>
          (RadixNode.Interior pre
            (insert_child_list (remove_child_list cs c).1 c
              (recursive_insert old rest newE).1).1 ec,
            (recursive_insert old rest newE).2)
        | none =>
          (RadixNode.Interior pre
            (insert_child_list cs c (RadixNode.Leaf newE rest)).1 ec, none)
      | none => (RadixNode.Interior pre cs ec, none)  -- unreachable
    | KeyMatchResult.LongerPre splitIndex =>
      let (common, difference) := KeyPre.split_at pre splitIndex
      match KeyPre.pop difference with
      | some (c, rest) =>
        (RadixNode.Interior common
          (insert_child_list [] c (RadixNode.Interior rest cs ec)).1
          (some (RadixNode.Leaf newE [])), none)
      | none => (RadixNode.Interior pre cs ec, none)  -- unreachable
    | KeyMatchResult.Incomplete splitIndex rp =>
      let (common, difference) := KeyPre.split_at pre splitIndex
      match KeyPre.pop difference, KeyProbe.pop rp with
      | some (cOld, restOld), some (cNew, restNew) =>
        (RadixNode.Interior common
          (insert_child_list
            (insert_child_list [] cOld (RadixNode.Interior restOld cs ec)).1
            cNew (RadixNode.Leaf newE restNew)).1
          none, none)
      | _, _ => (RadixNode.Interior pre cs ec, none)  -- unreachable
termination_by n probe newE => sizeOf n
decreasing_by
  · simp_wf
    omega
  · simp_wf
    have hlt : ∀ (l : List (Byte × RadixNode V)) (b : Byte) n,
        (remove_child_list l b).2 = some n → sizeOf n < sizeOf l := by
      intro l
      induction l with
      | nil => intro b n h; simp [remove_child_list] at h
      | cons hd tl ih =>
        intro b n h
        obtain ⟨c, m⟩ := hd
        by_cases hb : b = c
        · simp [remove_child_list, hb] at h
          subst h
          simp
          omega
        · simp [remove_child_list, hb] at h
          have := ih b n h
          simp
          omega
    have := hlt cs c old hrc
    omega

/-- node.rs recursive_find. At an Interior node with a Complete match the
source asserts the empty child is a Leaf with an empty remaining key and
returns its value; the Interior case of that slot (a panic in the source,
unreachable on well-formed trees) is modelled as a miss. -/
def recursive_find {V : Type} : RadixNode V → KeyProbe → Option V
  | RadixNode.Interior pre cs ec, probe =>
    match KeyPre.match_with pre probe with
    | KeyMatchResult.Complete =>
      match ec with
      | some (RadixNode.Leaf e _) => some e.value
      | some (RadixNode.Interior _ _ _) => none  -- source panics; unreachable
      | none => none
    | KeyMatchResult.PartialMatch rp =>
      match KeyProbe.pop rp with
      | some (c, rest) =>
        match hfc : find_child cs c with
        | some child => recursive_find child rest
        | none => none
      | none => none  -- unreachable
    | _ => none
  | RadixNode.Leaf e rem, probe =>
    match KeyPre.match_with rem probe with
    | KeyMatchResult.Complete => some e.value
    | _ => none
termination_by n probe => sizeOf n
decreasing_by
  simp_wf
  have hlt : ∀ (l : List (Byte × RadixNode V)) (b : Byte) n,
      find_child l b = some n → sizeOf n < sizeOf l := by
    intro l
    induction l with
    | nil => intro b n h; simp [find_child] at h
    | cons hd tl ih =>
      intro b n h
      obtain ⟨c, m⟩ := hd
      simp only [find_child] at h
      by_cases hb : b = c
      · simp [hb] at h
        cases h
        simp
        omega
      · simp [hb] at h
        have := ih b n h
        simp
        omega
  have := hlt cs c child hfc
  omega

/-- Reinstalling a recursively produced child below an Interior node during
removal: node.rs writes, inside recursive_remove, if let Some(updated) then
insert_child at the same slot, else leave the slot deleted. -/
def reinstall_child {V : Type} (pre : KeyPre) (cs1 : List (Byte × RadixNode V))
    (c : Byte) (ec : Option (RadixNode V)) (upd : Option (RadixNode V)) :
    RadixNode V :=
  match upd with
  | some u => RadixNode.Interior pre (insert_child_list cs1 c u).1 ec
  | none => RadixNode.Interior pre cs1 ec

/-- node.rs recursive_remove: returns the replacement subtree (none when the
subtree disappears) and the removed value. -/
def recursive_remove {V : Type} :
    RadixNode V → KeyProbe → Option (RadixNode V) × Option V
  | RadixNode.Leaf e rem, probe =>
    match KeyPre.match_with rem probe with
    | KeyMatchResult.Complete => (none, some e.value)
    | _ => (some (RadixNode.Leaf e rem), none)
  | RadixNode.Interior pre cs ec, probe =>
    match KeyPre.match_with pre probe with
    | KeyMatchResult.Complete =>
      match ec with
      | some empty_child =>
        (some (RadixNode.Interior pre cs (recursive_remove empty_child []).1),
          (recursive_remove empty_child []).2)
      | none => (some (RadixNode.Interior pre cs none), none)
    | KeyMatchResult.PartialMatch rp =>
      match KeyProbe.pop rp with
      | some (c, rest) =>
        match hrc : (remove_child_list cs c).2 with
        | some child =>
          (some (reinstall_child pre (remove_child_list cs c).1 c ec
            (recursive_remove child rest).1),
            (recursive_remove child rest).2)
        | none => (some (RadixNode.Interior pre cs ec), none)
      | none => (some (RadixNode.Interior pre cs ec), none)  -- unreachable
    | _ => (some (RadixNode.Interior pre cs ec), none)
termination_by n probe => sizeOf n
decreasing_by
  · simp_wf
    omega
  · simp_wf
    have hlt : ∀ (l : List (Byte × RadixNode V)) (b : Byte) n,
        (remove_child_list l b).2 = some n → sizeOf n < sizeOf l := by
      intro l
      induction l with
      | nil => intro b n h; simp [remove_child_list] at h
      | cons hd tl ih =>
        intro b n h
        obtain ⟨c, m⟩ := hd
        by_cases hb : b = c
        · simp [remove_child_list, hb] at h
          subst h
          simp
          omega
        · simp [remove_child_list, hb] at h
          have := ih b n h
          simp
          omega
    have := hlt cs c child hrc
    omega

/-- tree.rs struct RadixTree: the size counter and the optional root. -/
structure RadixTree (V : Type) where
  size : Nat
  root : Option (RadixNode V)
deriving Repr

/-- tree.rs RadixTree::new. -/
def RadixTree.new {V : Type} : RadixTree V := { size := 0, root := none }

/-- tree.rs RadixTree::len. -/
def RadixTree.len {V : Type} (t : RadixTree V) : Nat := t.size

/-- tree.rs RadixTree::is_empty: compares the size counter with 0. -/
def RadixTree.is_empty {V : Type} (t : RadixTree V) : Bool := t.size == 0

/-- tree.rs RadixTree::clear: drops the root; the source does not touch the
size counter. -/
def RadixTree.clear {V : Type} (t : RadixTree V) : RadixTree V :=
  { t with root := none }

/-- tree.rs RadixTree::get. -/
def RadixTree.get {V : Type} (t : RadixTree V) (key : List Byte) : Option V :=
  match t.root with
  | some r => recursive_find r key
  | none => none

/-- tree.rs RadixTree::contains_key. -/
def RadixTree.contains_key {V : Type} (t : RadixTree V) (key : List Byte) : Bool :=
  (t.get key).isSome

/-- tree.rs RadixTree::insert: returns the updated tree and the prior value;
the size counter is incremented exactly when no prior value was replaced. -/
def RadixTree.insert {V : Type} (t : RadixTree V) (key : List Byte) (value : V) :
    RadixTree V × Option V :=
  match t.root with
  | some r =>
    let updated := (recursive_insert r key { key := key, value := value }).1
    let oldEntry := (recursive_insert r key { key := key, value := value }).2
    let t' : RadixTree V := { size := t.size, root := some updated }
    (if oldEntry.isNone then { t' with size := t'.size + 1 } else t', oldEntry)
  | none =>
    ({ size := t.size + 1, root := some (RadixNode.new_leaf key value) }, none)

/-- tree.rs RadixTree::remove: returns the updated tree and the removed
value; the size counter is decremented exactly when a value was removed
(the source decrements a usize; here Nat subtraction stands in, which agrees
whenever the counter is positive). -/
def RadixTree.remove {V : Type} (t : RadixTree V) (key : List Byte) :
    RadixTree V × Option V :=
  match t.root with
  | some r =>
    let updated := (recursive_remove r key).1
    let oldEntry := (recursive_remove r key).2
    let t' : RadixTree V := { size := t.size, root := updated }
    (if oldEntry.isSome then { t' with size := t'.size - 1 } else t', oldEntry)
  | none => (t, none)

/-- find over an optional subtree, as tree.rs RadixTree::get does on the
optional root. -/
def findOpt {V : Type} (r : Option (RadixNode V)) (probe : KeyProbe) : Option V :=
  match r with
  | some n => recursive_find n probe
  | none => none

/-- Strictly ascending branch bytes: the sortedness the source maintains in
NodeChildren's Vec (required for its binary searches to be meaningful). -/
def sortedKeysb {V : Type} : List (Byte × RadixNode V) → Bool
  | [] => true
  | [_] => true
  | a :: b :: rest => decide (a.1 < b.1) && sortedKeysb (b :: rest)

mutual

/-- Structural well-formedness of a node, matching the invariants the source
asserts with debug_assert: branch lists are strictly sorted by byte, every
empty_child slot holds a Leaf whose remaining key is empty, recursively. -/
def wfb {V : Type} : RadixNode V → Bool
  | RadixNode.Leaf _ _ => true
  | RadixNode.Interior _ cs ec => sortedKeysb cs && wfbList cs && wfbEc ec

/-- wfb over a branch list. -/
def wfbList {V : Type} : List (Byte × RadixNode V) → Bool
  | [] => true
  | (_, n) :: rest => wfb n && wfbList rest

/-- wfb of an empty_child slot: absent, or a Leaf with empty remaining key. -/
def wfbEc {V : Type} : Option (RadixNode V) → Bool
  | none => true
  | some (RadixNode.Leaf _ rem) => rem.isEmpty
  | some (RadixNode.Interior _ _ _) => false

end

/-- Well-formedness of a tree's root. -/
def RadixTree.wf {V : Type} (t : RadixTree V) : Bool :=
  match t.root with
  | some r => wfb r
  | none => true

mutual

/-- The number of live entries (leaves) in a subtree. -/
def entryCount {V : Type} : RadixNode V → Nat
  | RadixNode.Leaf _ _ => 1
  | RadixNode.Interior _ cs ec => entryCountList cs + entryCountEc ec

/-- entryCount over a branch list. -/
def entryCountList {V : Type} : List (Byte × RadixNode V) → Nat
  | [] => 0
  | (_, n) :: rest => entryCount n + entryCountList rest

/-- entryCount of an empty_child slot. -/
def entryCountEc {V : Type} : Option (RadixNode V) → Nat
  | none => 0
  | some n => entryCount n

end

/-- The size counter dominates the number of live entries; together with
well-formedness this is the tree-level invariant every reachable tree
satisfies. -/
def RadixTree.inv {V : Type} (t : RadixTree V) : Bool :=
  t.wf && decide ((match t.root with
    | some r => entryCount r
    | none => 0) ≤ t.size)

/-- Spec-side predicate: at index i either buffer has run out or the bytes
at i differ (wording of the divergence-index clause of the spec). -/
def differAt (p : KeyPre) (q : KeyProbe) (i : Nat) : Prop :=
  p.length ≤ i ∨ q.length ≤ i ∨ p.getD i 0 ≠ q.getD i 0

/-- Spec-side predicate: i is the smallest index at which the two buffers
differ. -/
def isLeastDiff (p : KeyPre) (q : KeyProbe) (i : Nat) : Prop :=
  differAt p q i ∧ ∀ j < i, ¬ differAt p q j

/-- Test fixture: the spec section 9 divergence example, keys abcXY and
abcZW as byte lists, inserted into a fresh tree. -/
def c2tree : RadixTree Nat :=
  ((RadixTree.new.insert [97, 98, 99, 88, 89] 1).1.insert [97, 98, 99, 90, 87] 2).1

/-- Test fixture: one insert followed by clear. -/
def c3tree : RadixTree Nat := ((RadixTree.new.insert [97] 1).1).clear

/-- Test fixture: keys ZX and XZ (reversed pairs), whose split bytes collide
under the last-byte extraction. -/
def c4tree : RadixTree Nat :=
  ((RadixTree.new.insert [90, 88] 1).1.insert [88, 90] 2).1

/-! Lemmas about diff_index and match_with. -/

theorem find?_range_eq_some {n : Nat} {f : Nat → Bool} : ∀ {i : Nat},
    (List.range n).find? f = some i ↔
      (i < n ∧ f i = true ∧ ∀ j < i, f j = false) := by
  induction n with
  | zero => simp [List.range_zero]
  | succ n ih =>
    intro i
    rw [List.range_succ, List.find?_append]
    rcases h : (List.range n).find? f with _ | k
    · have hnone := List.find?_eq_none.mp h
      simp only [Option.none_or]
      constructor
      · intro hfind
        rcases hfn : f n with _ | _
        · simp [List.find?, hfn] at hfind
        · simp [List.find?, hfn] at hfind
          subst hfind
          refine ⟨Nat.lt_succ_self _, hfn, ?_⟩
          intro j hj
          have := hnone j (List.mem_range.mpr hj)
          simpa using this
      · rintro ⟨hin, hfi, hmin⟩
        have hi : i = n := by
          rcases Nat.lt_or_ge i n with hlt | hge
          · have := hnone i (List.mem_range.mpr hlt)
            simp [hfi] at this
          · omega
        subst hi
        simp [List.find?, hfi]
    · simp only [Option.or_some]
      have hk := ih.mp h
      constructor
      · intro hfind
        cases hfind
        exact ⟨Nat.lt_succ_of_lt hk.1, hk.2.1, hk.2.2⟩
      · rintro ⟨hin, hfi, hmin⟩
        have : i = k := by
          rcases Nat.lt_trichotomy i k with hlt | heq | hgt
          · have := hk.2.2 i hlt
            simp [hfi] at this
          · exact heq
          · have := hmin k hgt
            simp [hk.2.1] at this
        simp [this]

theorem differAt_bool {p : KeyPre} {q : KeyProbe} (j : Nat) :
    ((decide (p.length ≤ j) || decide (q.length ≤ j)
      || decide (p.getD j 0 ≠ q.getD j 0)) = true) ↔ differAt p q j := by
  simp [differAt, or_assoc]

theorem diff_index_eq_some {p : KeyPre} {q : KeyProbe} {d : Nat} :
    KeyPre.diff_index p q = some d ↔
      (d < max p.length q.length ∧ differAt p q d ∧ ∀ j < d, ¬ differAt p q j) := by
  unfold KeyPre.diff_index
  rw [find?_range_eq_some]
  constructor
  · rintro ⟨h1, h2, h3⟩
    refine ⟨h1, (differAt_bool d).mp h2, ?_⟩
    intro j hj hd
    have hf := h3 j hj
    rw [← differAt_bool j] at hd
    rw [hf] at hd
    exact Bool.false_ne_true hd
  · rintro ⟨h1, h2, h3⟩
    refine ⟨h1, (differAt_bool d).mpr h2, ?_⟩
    intro j hj
    have := h3 j hj
    rw [Bool.eq_false_iff]
    intro hc
    exact this ((differAt_bool j).mp hc)

theorem diff_index_eq_none {p : KeyPre} {q : KeyProbe} :
    KeyPre.diff_index p q = none ↔ p = q := by
  unfold KeyPre.diff_index
  rw [List.find?_eq_none]
  constructor
  · intro h
    have hall : ∀ j < max p.length q.length, ¬ differAt p q j := by
      intro j hj hd
      have := h j (List.mem_range.mpr hj)
      rw [← differAt_bool j] at hd
      exact this hd
    have hall' : ∀ j < max p.length q.length,
        j < p.length ∧ j < q.length ∧ p.getD j 0 = q.getD j 0 := by
      intro j hj
      have := hall j hj
      unfold differAt at this
      push_neg at this
      exact ⟨this.1, this.2.1, this.2.2⟩
    have hlen : p.length = q.length := by
      by_contra hne
      rcases Nat.lt_or_ge p.length q.length with hlt | hge
      · have := hall' p.length (by omega)
        omega
      · have : q.length < p.length := by omega
        have := hall' q.length (by omega)
        omega
    apply List.ext_getElem hlen
    intro i h1 h2
    have := hall' i (by omega)
    have hp : p.getD i 0 = p[i] := List.getD_eq_getElem p 0 h1
    have hq : q.getD i 0 = q[i] := List.getD_eq_getElem q 0 h2
    rw [hp, hq] at this
    exact this.2.2
  · rintro rfl
    intro j hj
    have hjl := List.mem_range.mp hj
    simp only [Nat.max_self] at hjl
    simp [Nat.not_le.mpr hjl]

theorem take_eq_of_agree {p q : List Byte} {d : Nat} (hdp : d ≤ p.length)
    (hdq : d ≤ q.length) (h : ∀ j < d, p.getD j 0 = q.getD j 0) :
    p.take d = q.take d := by
  apply List.ext_getElem (by simp [Nat.min_eq_left hdp, Nat.min_eq_left hdq])
  intro i h1 h2
  have hi : i < d := by
    simp [List.length_take] at h1
    omega
  have := h i hi
  rw [List.getD_eq_getElem p 0 (by omega), List.getD_eq_getElem q 0 (by omega)] at this
  simpa [List.getElem_take] using this

theorem agree_of_not_differAt {p : KeyPre} {q : KeyProbe} {d : Nat}
    (h : ∀ j < d, ¬ differAt p q j) :
    d ≤ p.length ∧ d ≤ q.length ∧ ∀ j < d, p.getD j 0 = q.getD j 0 := by
  have h' : ∀ j < d, j < p.length ∧ j < q.length ∧ p.getD j 0 = q.getD j 0 := by
    intro j hj
    have := h j hj
    unfold differAt at this
    push_neg at this
    exact ⟨this.1, this.2.1, this.2.2⟩
  refine ⟨?_, ?_, fun j hj => (h' j hj).2.2⟩
  · rcases Nat.eq_zero_or_pos d with h0 | h0
    · omega
    · have := h' (d - 1) (by omega)
      omega
  · rcases Nat.eq_zero_or_pos d with h0 | h0
    · omega
    · have := h' (d - 1) (by omega)
      omega

theorem match_with_self (x : KeyPre) :
    KeyPre.match_with x x = KeyMatchResult.Complete := by
  unfold KeyPre.match_with
  simp [List.isPrefixOf_iff_prefix]

theorem match_complete_iff {p : KeyPre} {q : KeyProbe} :
    KeyPre.match_with p q = KeyMatchResult.Complete ↔ p = q := by
  unfold KeyPre.match_with
  split_ifs with h1 h2 h3
  · simp only [reduceCtorEq, false_iff]
    intro he
    subst he
    omega
  · rw [List.isPrefixOf_iff_prefix] at h1
    simp only [true_iff]
    exact h1.eq_of_length (by
      have := h1.length_le
      omega)
  · simp only [reduceCtorEq, false_iff]
    intro he
    subst he
    rw [List.isPrefixOf_iff_prefix] at h1
    exact h1 (List.prefix_refl p)
  · rcases hdi : KeyPre.diff_index p q with _ | d
    · simp only [reduceCtorEq, false_iff]
      intro he
      subst he
      rw [List.isPrefixOf_iff_prefix] at h1
      exact h1 (List.prefix_refl p)
    · constructor
      · intro hc
        by_cases hd0 : d = 0 <;> simp [hd0] at hc
      · intro he
        subst he
        rw [List.isPrefixOf_iff_prefix] at h1
        exact absurd (List.prefix_refl p) h1

theorem match_partial_iff {p : KeyPre} {q : KeyProbe} {r : KeyProbe} :
    KeyPre.match_with p q = KeyMatchResult.PartialMatch r ↔
      (p <+: q ∧ p.length < q.length ∧ r = q.drop p.length) := by
  unfold KeyPre.match_with
  split_ifs with h1 h2 h3
  · rw [List.isPrefixOf_iff_prefix] at h1
    simp [h1, h2, eq_comm]
  · rw [List.isPrefixOf_iff_prefix] at h1
    simp [h1, h2]
  · simp only [reduceCtorEq, false_iff]
    rintro ⟨hp, _, _⟩
    rw [List.isPrefixOf_iff_prefix] at h1
    exact h1 hp
  · rcases hdi : KeyPre.diff_index p q with _ | d
    · simp only [reduceCtorEq, false_iff]
      rintro ⟨hp, _, _⟩
      rw [List.isPrefixOf_iff_prefix] at h1
      exact h1 hp
    · constructor
      · intro hc
        by_cases hd0 : d = 0 <;> simp [hd0] at hc
      · rintro ⟨hp, _, _⟩
        rw [List.isPrefixOf_iff_prefix] at h1
        exact absurd hp h1

theorem match_longer_iff {p : KeyPre} {q : KeyProbe} {i : Nat} :
    KeyPre.match_with p q = KeyMatchResult.LongerPre i ↔
      (q <+: p ∧ q.length < p.length ∧ i = q.length) := by
  unfold KeyPre.match_with
  split_ifs with h1 h2 h3
  · rw [List.isPrefixOf_iff_prefix] at h1
    simp only [reduceCtorEq, false_iff]
    rintro ⟨hq, hlen, _⟩
    have := h1.length_le
    omega
  · rw [List.isPrefixOf_iff_prefix] at h1
    simp only [reduceCtorEq, false_iff]
    rintro ⟨hq, hlen, _⟩
    have := h1.length_le
    omega
  · obtain ⟨hlen, hq⟩ := h3
    rw [List.isPrefixOf_iff_prefix] at hq
    simp [hq, hlen, eq_comm]
  · push_neg at h3
    rcases hdi : KeyPre.diff_index p q with _ | d
    · simp only [reduceCtorEq, false_iff]
      rintro ⟨hq, hlen, _⟩
      have := h3 hlen
      simp only [ne_eq, List.isPrefixOf_iff_prefix] at this
      exact this hq
    · constructor
      · intro hc
        by_cases hd0 : d = 0 <;> simp [hd0] at hc
      · rintro ⟨hq, hlen, _⟩
        have := h3 hlen
        simp only [ne_eq, List.isPrefixOf_iff_prefix] at this
        exact absurd hq this

theorem match_incomplete_elim {p : KeyPre} {q : KeyProbe} {i : Nat} {r : KeyProbe}
    (h : KeyPre.match_with p q = KeyMatchResult.Incomplete i r) :
    i < p.length ∧ i < q.length ∧ p.getD i 0 ≠ q.getD i 0 ∧
      (∀ j < i, ¬ differAt p q j) ∧ r = q.drop i ∧ p.take i = q.take i := by
  unfold KeyPre.match_with at h
  split_ifs at h with h1 h2 h3
  rcases hdi : KeyPre.diff_index p q with _ | d
  · rw [hdi] at h
    have := diff_index_eq_none.mp hdi
    subst this
    rw [List.isPrefixOf_iff_prefix] at h1
    exact absurd (List.prefix_refl p) h1
  · rw [hdi] at h
    dsimp only at h
    obtain ⟨hmax, hdiff, hmin⟩ := diff_index_eq_some.mp hdi
    obtain ⟨hdp, hdq, hagree⟩ := agree_of_not_differAt hmin
    have htk : p.take d = q.take d := take_eq_of_agree hdp hdq hagree
    have hA : d < p.length := by
      by_contra hge
      push_neg at hge
      have hdl : d = p.length := by omega
      have hqd : d < q.length := by omega
      have hpq : p <+: q := by
        have hfull : p.take d = p := by
          rw [hdl]
          exact List.take_length p
        rw [← hfull, htk]
        exact List.take_prefix d q
      rw [List.isPrefixOf_iff_prefix] at h1
      exact h1 hpq
    have hB : d < q.length := by
      by_contra hge
      push_neg at hge
      have hdl : d = q.length := by omega
      have hpd : d < p.length := by omega
      have hqp : q <+: p := by
        have hfull : q.take d = q := by
          rw [hdl]
          exact List.take_length q
        rw [← hfull, ← htk]
        exact List.take_prefix d p
      push_neg at h3
      have := h3 (by omega)
      simp only [ne_eq, List.isPrefixOf_iff_prefix] at this
      exact this hqp
    have hC : p.getD d 0 ≠ q.getD d 0 := by
      rcases hdiff with hpl | hql | hne
      · omega
      · omega
      · exact hne
    by_cases hd0 : d = 0
    · subst hd0
      rw [if_pos rfl] at h
      simp only [KeyMatchResult.Incomplete.injEq] at h
      obtain ⟨hii, hrr⟩ := h
      subst hii
      subst hrr
      exact ⟨hA, hB, hC, hmin, by simp, by simp⟩
    · rw [if_neg hd0] at h
      simp only [KeyMatchResult.Incomplete.injEq] at h
      obtain ⟨hii, hrr⟩ := h
      subst hii
      subst hrr
      exact ⟨hA, hB, hC, hmin, rfl, htk⟩

theorem match_incomplete_intro {p : KeyPre} {q : KeyProbe} {i : Nat}
    (h1 : ¬ p <+: q) (h2 : ¬ (q <+: p ∧ q ≠ p)) (h3 : isLeastDiff p q i) :
    KeyPre.match_with p q = KeyMatchResult.Incomplete i (q.drop i) := by
  have hne : p ≠ q := fun he => h1 (he ▸ List.prefix_refl p)
  have hsome : ∃ d, KeyPre.diff_index p q = some d := by
    rcases hdi : KeyPre.diff_index p q with _ | d
    · exact absurd (diff_index_eq_none.mp hdi) hne
    · exact ⟨d, rfl⟩
  obtain ⟨d, hdi⟩ := hsome
  obtain ⟨hmax, hdiff, hmin⟩ := diff_index_eq_some.mp hdi
  have hid : i = d := by
    rcases Nat.lt_trichotomy i d with hlt | heq | hgt
    · exact absurd h3.1 (hmin i hlt)
    · exact heq
    · exact absurd hdiff (h3.2 d hgt)
  subst hid
  unfold KeyPre.match_with
  rw [if_neg (by
    simp only [List.isPrefixOf_iff_prefix]
    exact h1)]
  rw [if_neg (by
    rintro ⟨hlen, hqp⟩
    rw [List.isPrefixOf_iff_prefix] at hqp
    exact h2 ⟨hqp, by
      intro he
      subst he
      omega⟩)]
  rw [hdi]
  dsimp only
  by_cases hd0 : i = 0
  · subst hd0
    simp
  · rw [if_neg hd0]

theorem match_take_partial {p : KeyPre} {q : KeyProbe} {i : Nat} {r : KeyProbe}
    (h : KeyPre.match_with p q = KeyMatchResult.Incomplete i r) :
    KeyPre.match_with (p.take i) q = KeyMatchResult.PartialMatch r := by
  obtain ⟨hip, hiq, _, _, hr, htake⟩ := match_incomplete_elim h
  rw [match_partial_iff]
  have hlen : (p.take i).length = i := by
    rw [List.length_take]
    omega
  refine ⟨?_, ?_, ?_⟩
  · rw [htake]
    exact List.take_prefix i q
  · omega
  · rw [hlen, hr]

theorem match_longer_take {p : KeyPre} {q : KeyProbe} {i : Nat}
    (h : KeyPre.match_with p q = KeyMatchResult.LongerPre i) :
    p.take i = q ∧ i = q.length ∧ q.length < p.length := by
  obtain ⟨hq, hlen, hi⟩ := match_longer_iff.mp h
  refine ⟨?_, hi, hlen⟩
  subst hi
  exact (List.prefix_iff_eq_take.mp hq).symm

/-! Lemmas about the child index. -/

theorem find_child_insert_self {V : Type} (l : List (Byte × RadixNode V)) (b : Byte)
    (n : RadixNode V) : find_child (insert_child_list l b n).1 b = some n := by
  induction l with
  | nil => simp [insert_child_list, find_child]
  | cons hd tl ih =>
    obtain ⟨c, m⟩ := hd
    by_cases hlt : b < c
    · simp [insert_child_list, hlt, find_child]
    · by_cases heq : b = c
      · simp [insert_child_list, hlt, heq, find_child]
      · simp [insert_child_list, hlt, heq, find_child, ih]

theorem find_child_insert_other {V : Type} {l : List (Byte × RadixNode V)} {b b' : Byte}
    (n : RadixNode V) (h : b' ≠ b) :
    find_child (insert_child_list l b n).1 b' = find_child l b' := by
  induction l with
  | nil => simp [insert_child_list, find_child, h]
  | cons hd tl ih =>
    obtain ⟨c, m⟩ := hd
    by_cases hlt : b < c
    · simp [insert_child_list, hlt, find_child, h]
    · by_cases heq : b = c
      · subst heq
        simp [insert_child_list, hlt, find_child, h]
      · by_cases hbc : b' = c
        · simp [insert_child_list, hlt, heq, find_child, hbc]
        · simp [insert_child_list, hlt, heq, find_child, hbc, ih]

theorem remove_child_snd {V : Type} (l : List (Byte × RadixNode V)) (b : Byte) :
    (remove_child_list l b).2 = find_child l b := by
  induction l with
  | nil => simp [remove_child_list, find_child]
  | cons hd tl ih =>
    obtain ⟨c, m⟩ := hd
    by_cases heq : b = c
    · simp [remove_child_list, heq, find_child]
    · simp [remove_child_list, heq, find_child, ih]

theorem find_child_remove_other {V : Type} {l : List (Byte × RadixNode V)} {b b' : Byte}
    (h : b' ≠ b) :
    find_child (remove_child_list l b).1 b' = find_child l b' := by
  induction l with
  | nil => simp [remove_child_list, find_child]
  | cons hd tl ih =>
    obtain ⟨c, m⟩ := hd
    by_cases heq : b = c
    · subst heq
      simp [remove_child_list, find_child, h]
    · by_cases hbc : b' = c
      · simp [remove_child_list, heq, find_child, hbc]
      · simp [remove_child_list, heq, find_child, hbc, ih]

theorem sorted_cons {V : Type} {a : Byte × RadixNode V} {l : List (Byte × RadixNode V)}
    (h : sortedKeysb (a :: l) = true) :
    (∀ p ∈ l, a.1 < p.1) ∧ sortedKeysb l = true := by
  induction l generalizing a with
  | nil => simp [sortedKeysb]
  | cons hd tl ih =>
    have h' : a.1 < hd.1 ∧ sortedKeysb (hd :: tl) = true := by
      simpa [sortedKeysb] using h
    obtain ⟨hlt, hs⟩ := h'
    have := ih hs
    refine ⟨?_, hs⟩
    intro p hp
    rcases List.mem_cons.mp hp with rfl | hp'
    · exact hlt
    · exact lt_trans hlt (this.1 p hp')

theorem find_child_none_of_lt {V : Type} {l : List (Byte × RadixNode V)} {b : Byte}
    (h : ∀ p ∈ l, b < p.1) : find_child l b = none := by
  induction l with
  | nil => simp [find_child]
  | cons hd tl ih =>
    obtain ⟨c, m⟩ := hd
    have hc : b < c := h (c, m) (List.mem_cons_self _ _)
    have : b ≠ c := Nat.ne_of_lt hc
    simp [find_child, this]
    exact ih fun p hp => h p (List.mem_cons_of_mem _ hp)

theorem find_child_remove_self {V : Type} {l : List (Byte × RadixNode V)} {b : Byte}
    (hs : sortedKeysb l = true) :
    find_child (remove_child_list l b).1 b = none := by
  induction l with
  | nil => simp [remove_child_list, find_child]
  | cons hd tl ih =>
    obtain ⟨c, m⟩ := hd
    obtain ⟨hlt, hstl⟩ := sorted_cons hs
    by_cases heq : b = c
    · subst heq
      simp only [remove_child_list, if_pos rfl]
      exact find_child_none_of_lt hlt
    · simp [remove_child_list, heq, find_child, ih hstl]

theorem insert_front_of_lt {V : Type} {l : List (Byte × RadixNode V)} {b : Byte}
    (n : RadixNode V) (h : ∀ p ∈ l, b < p.1) :
    (insert_child_list l b n).1 = (b, n) :: l := by
  cases l with
  | nil => simp [insert_child_list]
  | cons hd tl =>
    obtain ⟨c, m⟩ := hd
    have hc : b < c := h (c, m) (List.mem_cons_self _ _)
    simp [insert_child_list, hc]

theorem insert_remove_roundtrip {V : Type} {l l1 : List (Byte × RadixNode V)}
    {b : Byte} {m : RadixNode V} (hs : sortedKeysb l = true)
    (h : remove_child_list l b = (l1, some m)) :
    (insert_child_list l1 b m).1 = l := by
  induction l generalizing l1 with
  | nil => simp [remove_child_list] at h
  | cons hd tl ih =>
    obtain ⟨c, m0⟩ := hd
    obtain ⟨hlt, hstl⟩ := sorted_cons hs
    by_cases heq : b = c
    · have hr : remove_child_list ((c, m0) :: tl) b = (tl, some m0) := by
        simp [remove_child_list, heq]
      rw [hr] at h
      have h1 : tl = l1 := congrArg Prod.fst h
      have h3 : m0 = m := by
        have h2 : some m0 = some m := congrArg Prod.snd h
        injection h2
      subst h1
      subst h3
      rw [insert_front_of_lt _ (fun p hp => by
        have := hlt p hp
        simp only at this
        rw [heq]
        exact this), heq]
    · simp only [remove_child_list, if_neg heq] at h
      obtain ⟨h1, h2⟩ := Prod.mk.injEq .. ▸ h
      have hfound : find_child tl b = some m := by
        rw [← remove_child_snd]
        rw [show (remove_child_list tl b).2 = some m from h2]
      have hbc : ¬ b < c := by
        intro hbclt
        have : find_child tl b = none := find_child_none_of_lt fun p hp =>
          lt_trans hbclt (hlt p hp)
        rw [this] at hfound
        exact Option.noConfusion hfound
      subst h1
      simp only [insert_child_list, if_neg hbc, if_neg heq]
      have := ih hstl (Prod.ext rfl h2)
      simp [this]

theorem sorted_cons_iff {V : Type} {a : Byte × RadixNode V} {l : List (Byte × RadixNode V)} :
    sortedKeysb (a :: l) = true ↔ ((∀ p ∈ l, a.1 < p.1) ∧ sortedKeysb l = true) := by
  constructor
  · exact sorted_cons
  · rintro ⟨hall, hs⟩
    cases l with
    | nil => simp [sortedKeysb]
    | cons hd tl =>
      have : a.1 < hd.1 := hall hd (List.mem_cons_self _ _)
      simp [sortedKeysb, this, hs]

theorem mem_insert_child {V : Type} {l : List (Byte × RadixNode V)} {b : Byte}
    {n : RadixNode V} {p : Byte × RadixNode V} (h : p ∈ (insert_child_list l b n).1) :
    p ∈ l ∨ p = (b, n) := by
  induction l with
  | nil =>
    simp [insert_child_list] at h
    exact Or.inr h
  | cons hd tl ih =>
    obtain ⟨c, m⟩ := hd
    by_cases hblt : b < c
    · simp only [insert_child_list, if_pos hblt] at h
      rcases List.mem_cons.mp h with rfl | h'
      · exact Or.inr rfl
      · exact Or.inl h'
    · by_cases heq : b = c
      · simp only [insert_child_list, if_neg hblt, if_pos heq] at h
        rcases List.mem_cons.mp h with rfl | h'
        · exact Or.inr rfl
        · exact Or.inl (List.mem_cons_of_mem _ h')
      · simp only [insert_child_list, if_neg hblt, if_neg heq] at h
        rcases List.mem_cons.mp h with rfl | h'
        · exact Or.inl (List.mem_cons_self _ _)
        · rcases ih h' with h'' | h''
          · exact Or.inl (List.mem_cons_of_mem _ h'')
          · exact Or.inr h''

theorem mem_remove_child {V : Type} {l : List (Byte × RadixNode V)} {b : Byte}
    {p : Byte × RadixNode V} (h : p ∈ (remove_child_list l b).1) : p ∈ l := by
  induction l with
  | nil => simpa [remove_child_list] using h
  | cons hd tl ih =>
    obtain ⟨c, m⟩ := hd
    by_cases heq : b = c
    · simp only [remove_child_list, if_pos heq] at h
      exact List.mem_cons_of_mem _ h
    · simp only [remove_child_list, if_neg heq] at h
      rcases List.mem_cons.mp h with rfl | h'
      · exact List.mem_cons_self _ _
      · exact List.mem_cons_of_mem _ (ih h')

theorem sorted_insert {V : Type} {l : List (Byte × RadixNode V)} (b : Byte)
    (n : RadixNode V) (hs : sortedKeysb l = true) :
    sortedKeysb (insert_child_list l b n).1 = true := by
  induction l with
  | nil => simp [insert_child_list, sortedKeysb]
  | cons hd tl ih =>
    obtain ⟨c, m⟩ := hd
    obtain ⟨hlt, hstl⟩ := sorted_cons hs
    by_cases hblt : b < c
    · simp only [insert_child_list, if_pos hblt]
      rw [sorted_cons_iff]
      refine ⟨?_, hs⟩
      intro p hp
      rcases List.mem_cons.mp hp with rfl | hp'
      · exact hblt
      · exact lt_trans hblt (hlt p hp')
    · by_cases heq : b = c
      · have hred : (insert_child_list ((c, m) :: tl) b n).1 = (c, n) :: tl := by
          simp [insert_child_list, hblt, heq]
        rw [hred, sorted_cons_iff]
        exact ⟨fun p hp => hlt p hp, hstl⟩
      · simp only [insert_child_list, if_neg hblt, if_neg heq]
        rw [sorted_cons_iff]
        refine ⟨?_, ih hstl⟩
        intro p hp
        rcases mem_insert_child hp with hp' | hp'
        · exact hlt p hp'
        · subst hp'
          show c < b
          exact Nat.lt_of_le_of_ne (Nat.le_of_not_lt hblt) fun hcb => heq hcb.symm
    
theorem sorted_remove {V : Type} {l : List (Byte × RadixNode V)} (b : Byte)
    (hs : sortedKeysb l = true) :
    sortedKeysb (remove_child_list l b).1 = true := by
  induction l with
  | nil => simp [remove_child_list, sortedKeysb]
  | cons hd tl ih =>
    obtain ⟨c, m⟩ := hd
    obtain ⟨hlt, hstl⟩ := sorted_cons hs
    by_cases heq : b = c
    · simp only [remove_child_list, if_pos heq]
      exact hstl
    · simp only [remove_child_list, if_neg heq]
      rw [sorted_cons_iff]
      refine ⟨?_, ih hstl⟩
      intro p hp
      exact hlt p (mem_remove_child hp)

theorem wfbList_find {V : Type} {l : List (Byte × RadixNode V)} {b : Byte}
    {m : RadixNode V} (hw : wfbList l = true) (h : find_child l b = some m) :
    wfb m = true := by
  induction l with
  | nil => simp [find_child] at h
  | cons hd tl ih =>
    obtain ⟨c, n⟩ := hd
    have hw' : wfb n = true ∧ wfbList tl = true := by simpa [wfbList] using hw
    by_cases heq : b = c
    · simp [find_child, heq] at h
      subst h
      exact hw'.1
    · simp [find_child, heq] at h
      exact ih hw'.2 h

theorem wfbList_insert {V : Type} {l : List (Byte × RadixNode V)} {b : Byte}
    {n : RadixNode V} (hw : wfbList l = true) (hn : wfb n = true) :
    wfbList (insert_child_list l b n).1 = true := by
  induction l with
  | nil => simp [insert_child_list, wfbList, hn]
  | cons hd tl ih =>
    obtain ⟨c, m⟩ := hd
    have hw' : wfb m = true ∧ wfbList tl = true := by simpa [wfbList] using hw
    by_cases hblt : b < c
    · simp only [insert_child_list, if_pos hblt]
      simp [wfbList, hn, hw'.1, hw'.2]
    · by_cases heq : b = c
      · simp only [insert_child_list, if_neg hblt, if_pos heq]
        simp [wfbList, hn, hw'.2]
      · simp only [insert_child_list, if_neg hblt, if_neg heq]
        simp [wfbList, hw'.1, ih hw'.2]

theorem wfbList_remove {V : Type} {l : List (Byte × RadixNode V)} (b : Byte)
    (hw : wfbList l = true) :
    wfbList (remove_child_list l b).1 = true := by
  induction l with
  | nil => simp [remove_child_list, wfbList]
  | cons hd tl ih =>
    obtain ⟨c, m⟩ := hd
    have hw' : wfb m = true ∧ wfbList tl = true := by simpa [wfbList] using hw
    by_cases heq : b = c
    · simp only [remove_child_list, if_pos heq]
      exact hw'.2
    · simp only [remove_child_list, if_neg heq]
      simp [wfbList, hw'.1, ih hw'.2]

/-! Node-level lemmas relating insert, find and remove. -/

/-! Derived equation lemmas for the recursive functions (the generated
equations are split on the empty-child slot and guarded by dependent
matches; these restate them in directly usable form). -/

theorem insert_interior_complete_some {V : Type} {pre : KeyPre}
    {cs : List (Byte × RadixNode V)} {old : RadixNode V} {probe : KeyProbe}
    {newE : KeyValue V}
    (hm : KeyPre.match_with pre probe = KeyMatchResult.Complete) :
    recursive_insert (RadixNode.Interior pre cs (some old)) probe newE =
      (RadixNode.Interior pre cs (some (recursive_insert old [] newE).1),
        (recursive_insert old [] newE).2) := by
  simp only [recursive_insert, hm]

theorem insert_interior_complete_none {V : Type} {pre : KeyPre}
    {cs : List (Byte × RadixNode V)} {probe : KeyProbe} {newE : KeyValue V}
    (hm : KeyPre.match_with pre probe = KeyMatchResult.Complete) :
    recursive_insert (RadixNode.Interior pre cs none) probe newE =
      (RadixNode.Interior pre cs (some (RadixNode.Leaf newE [])), none) := by
  simp only [recursive_insert, hm]

theorem insert_interior_partial_child {V : Type} {pre : KeyPre}
    {cs : List (Byte × RadixNode V)} {ec : Option (RadixNode V)}
    {probe rp : KeyProbe} {newE : KeyValue V} {c : Byte} {rest : KeyProbe}
    {old : RadixNode V}
    (hm : KeyPre.match_with pre probe = KeyMatchResult.PartialMatch rp)
    (hpop : KeyProbe.pop rp = some (c, rest))
    (hrc : (remove_child_list cs c).2 = some old) :
    recursive_insert (RadixNode.Interior pre cs ec) probe newE =
      (RadixNode.Interior pre
        (insert_child_list (remove_child_list cs c).1 c
          (recursive_insert old rest newE).1).1 ec,
        (recursive_insert old rest newE).2) := by
  cases ec <;> simp only [recursive_insert, hm, hpop] <;> split <;> rename_i heq <;>
    rw [hrc] at heq <;>
    first
    | exact Option.noConfusion heq
    | rfl
    | (injection heq with h2; subst h2; rfl)


theorem insert_interior_partial_nochild {V : Type} {pre : KeyPre}
    {cs : List (Byte × RadixNode V)} {ec : Option (RadixNode V)}
    {probe rp : KeyProbe} {newE : KeyValue V} {c : Byte} {rest : KeyProbe}
    (hm : KeyPre.match_with pre probe = KeyMatchResult.PartialMatch rp)
    (hpop : KeyProbe.pop rp = some (c, rest))
    (hrc : (remove_child_list cs c).2 = none) :
    recursive_insert (RadixNode.Interior pre cs ec) probe newE =
      (RadixNode.Interior pre
        (insert_child_list cs c (RadixNode.Leaf newE rest)).1 ec, none) := by
  cases ec <;> simp only [recursive_insert, hm, hpop] <;> split <;> rename_i heq <;>
    rw [hrc] at heq <;>
    first
    | exact Option.noConfusion heq
    | rfl
    | (injection heq with h2; subst h2; rfl)


theorem insert_interior_longer {V : Type} {pre : KeyPre}
    {cs : List (Byte × RadixNode V)} {ec : Option (RadixNode V)}
    {probe : KeyProbe} {newE : KeyValue V} {si : Nat} {c : Byte} {rest : KeyPre}
    (hm : KeyPre.match_with pre probe = KeyMatchResult.LongerPre si)
    (hpop : KeyPre.pop (KeyPre.split_at pre si).2 = some (c, rest)) :
    recursive_insert (RadixNode.Interior pre cs ec) probe newE =
      (RadixNode.Interior (KeyPre.split_at pre si).1
        (insert_child_list [] c (RadixNode.Interior rest cs ec)).1
        (some (RadixNode.Leaf newE [])), none) := by
  cases ec <;> simp only [recursive_insert, hm, hpop]

theorem insert_interior_incomplete {V : Type} {pre : KeyPre}
    {cs : List (Byte × RadixNode V)} {ec : Option (RadixNode V)}
    {probe rp : KeyProbe} {newE : KeyValue V} {si : Nat} {cOld : Byte}
    {restOld : KeyPre} {cNew : Byte} {restNew : KeyProbe}
    (hm : KeyPre.match_with pre probe = KeyMatchResult.Incomplete si rp)
    (hpop1 : KeyPre.pop (KeyPre.split_at pre si).2 = some (cOld, restOld))
    (hpop2 : KeyProbe.pop rp = some (cNew, restNew)) :
    recursive_insert (RadixNode.Interior pre cs ec) probe newE =
      (RadixNode.Interior (KeyPre.split_at pre si).1
        (insert_child_list
          (insert_child_list [] cOld (RadixNode.Interior restOld cs ec)).1
          cNew (RadixNode.Leaf newE restNew)).1
        none, none) := by
  cases ec <;> simp only [recursive_insert, hm, hpop1, hpop2]

theorem find_interior_complete {V : Type} {pre : KeyPre}
    {cs : List (Byte × RadixNode V)} {ec : Option (RadixNode V)} {probe : KeyProbe}
    (hm : KeyPre.match_with pre probe = KeyMatchResult.Complete) :
    recursive_find (RadixNode.Interior pre cs ec) probe =
      (match ec with
        | some (RadixNode.Leaf e _) => some e.value
        | _ => none) := by
  cases ec with
  | none => simp only [recursive_find, hm]
  | some n2 => cases n2 <;> simp only [recursive_find, hm]

theorem find_interior_partial_child {V : Type} {pre : KeyPre}
    {cs : List (Byte × RadixNode V)} {ec : Option (RadixNode V)}
    {probe rp : KeyProbe} {c : Byte} {rest : KeyProbe} {child : RadixNode V}
    (hm : KeyPre.match_with pre probe = KeyMatchResult.PartialMatch rp)
    (hpop : KeyProbe.pop rp = some (c, rest))
    (hfc : find_child cs c = some child) :
    recursive_find (RadixNode.Interior pre cs ec) probe =
      recursive_find child rest := by
  cases ec with
  | none =>
    simp only [recursive_find, hm, hpop]
    split <;> rename_i heq <;> rw [hfc] at heq <;>
      first
      | exact Option.noConfusion heq
      | rfl
      | (injection heq with h2; subst h2; rfl)
  | some n2 =>
    cases n2 <;>
      (simp only [recursive_find, hm, hpop]
       split <;> rename_i heq <;> rw [hfc] at heq <;>
        first
        | exact Option.noConfusion heq
        | rfl
        | (injection heq with h2; subst h2; rfl))


theorem find_interior_partial_nochild {V : Type} {pre : KeyPre}
    {cs : List (Byte × RadixNode V)} {ec : Option (RadixNode V)}
    {probe rp : KeyProbe} {c : Byte} {rest : KeyProbe}
    (hm : KeyPre.match_with pre probe = KeyMatchResult.PartialMatch rp)
    (hpop : KeyProbe.pop rp = some (c, rest))
    (hfc : find_child cs c = none) :
    recursive_find (RadixNode.Interior pre cs ec) probe = none := by
  cases ec with
  | none =>
    simp only [recursive_find, hm, hpop]
    split <;> rename_i heq <;> rw [hfc] at heq <;>
      first
      | exact Option.noConfusion heq
      | rfl
      | (injection heq with h2; subst h2; rfl)
  | some n2 =>
    cases n2 <;>
      (simp only [recursive_find, hm, hpop]
       split <;> rename_i heq <;> rw [hfc] at heq <;>
        first
        | exact Option.noConfusion heq
        | rfl
        | (injection heq with h2; subst h2; rfl))


theorem find_interior_longer {V : Type} {pre : KeyPre}
    {cs : List (Byte × RadixNode V)} {ec : Option (RadixNode V)} {probe : KeyProbe}
    {si : Nat}
    (hm : KeyPre.match_with pre probe = KeyMatchResult.LongerPre si) :
    recursive_find (RadixNode.Interior pre cs ec) probe = none := by
  cases ec with
  | none => simp only [recursive_find, hm]
  | some n2 => cases n2 <;> simp only [recursive_find, hm]

theorem find_interior_incomplete {V : Type} {pre : KeyPre}
    {cs : List (Byte × RadixNode V)} {ec : Option (RadixNode V)} {probe rp : KeyProbe}
    {si : Nat}
    (hm : KeyPre.match_with pre probe = KeyMatchResult.Incomplete si rp) :
    recursive_find (RadixNode.Interior pre cs ec) probe = none := by
  cases ec with
  | none => simp only [recursive_find, hm]
  | some n2 => cases n2 <;> simp only [recursive_find, hm]

theorem find_leaf {V : Type} {e : KeyValue V} {rem : KeyPre} {probe : KeyProbe} :
    recursive_find (RadixNode.Leaf e rem) probe =
      (match KeyPre.match_with rem probe with
        | KeyMatchResult.Complete => some e.value
        | _ => none) := by
  simp only [recursive_find]

theorem remove_interior_complete_some {V : Type} {pre : KeyPre}
    {cs : List (Byte × RadixNode V)} {old : RadixNode V} {probe : KeyProbe}
    (hm : KeyPre.match_with pre probe = KeyMatchResult.Complete) :
    recursive_remove (RadixNode.Interior pre cs (some old)) probe =
      (some (RadixNode.Interior pre cs (recursive_remove old []).1),
        (recursive_remove old []).2) := by
  simp only [recursive_remove, hm]

theorem remove_interior_complete_none {V : Type} {pre : KeyPre}
    {cs : List (Byte × RadixNode V)} {probe : KeyProbe}
    (hm : KeyPre.match_with pre probe = KeyMatchResult.Complete) :
    recursive_remove (RadixNode.Interior pre cs none) probe =
      (some (RadixNode.Interior pre cs none), (none : Option V)) := by
  simp only [recursive_remove, hm]

theorem remove_interior_partial_child {V : Type} {pre : KeyPre}
    {cs : List (Byte × RadixNode V)} {ec : Option (RadixNode V)}
    {probe rp : KeyProbe} {c : Byte} {rest : KeyProbe} {child : RadixNode V}
    (hm : KeyPre.match_with pre probe = KeyMatchResult.PartialMatch rp)
    (hpop : KeyProbe.pop rp = some (c, rest))
    (hrc : (remove_child_list cs c).2 = some child) :
    recursive_remove (RadixNode.Interior pre cs ec) probe =
      (some (reinstall_child pre (remove_child_list cs c).1 c ec
        (recursive_remove child rest).1),
        (recursive_remove child rest).2) := by
  cases ec <;> simp only [recursive_remove, hm, hpop] <;> split <;> rename_i heq <;>
    rw [hrc] at heq <;>
    first
    | exact Option.noConfusion heq
    | rfl
    | (injection heq with h2; subst h2; rfl)


theorem remove_interior_partial_nochild {V : Type} {pre : KeyPre}
    {cs : List (Byte × RadixNode V)} {ec : Option (RadixNode V)}
    {probe rp : KeyProbe} {c : Byte} {rest : KeyProbe}
    (hm : KeyPre.match_with pre probe = KeyMatchResult.PartialMatch rp)
    (hpop : KeyProbe.pop rp = some (c, rest))
    (hrc : (remove_child_list cs c).2 = none) :
    recursive_remove (RadixNode.Interior pre cs ec) probe =
      (some (RadixNode.Interior pre cs ec), none) := by
  cases ec <;> simp only [recursive_remove, hm, hpop] <;> split <;> rename_i heq <;>
    rw [hrc] at heq <;>
    first
    | exact Option.noConfusion heq
    | rfl
    | (injection heq with h2; subst h2; rfl)


theorem remove_interior_longer {V : Type} {pre : KeyPre}
    {cs : List (Byte × RadixNode V)} {ec : Option (RadixNode V)} {probe : KeyProbe}
    {si : Nat}
    (hm : KeyPre.match_with pre probe = KeyMatchResult.LongerPre si) :
    recursive_remove (RadixNode.Interior pre cs ec) probe =
      (some (RadixNode.Interior pre cs ec), none) := by
  cases ec <;> simp only [recursive_remove, hm]

theorem remove_interior_incomplete {V : Type} {pre : KeyPre}
    {cs : List (Byte × RadixNode V)} {ec : Option (RadixNode V)} {probe rp : KeyProbe}
    {si : Nat}
    (hm : KeyPre.match_with pre probe = KeyMatchResult.Incomplete si rp) :
    recursive_remove (RadixNode.Interior pre cs ec) probe =
      (some (RadixNode.Interior pre cs ec), none) := by
  cases ec <;> simp only [recursive_remove, hm]

theorem remove_leaf {V : Type} {e : KeyValue V} {rem : KeyPre} {probe : KeyProbe} :
    recursive_remove (RadixNode.Leaf e rem) probe =
      (match KeyPre.match_with rem probe with
        | KeyMatchResult.Complete => (none, some e.value)
        | _ => (some (RadixNode.Leaf e rem), none)) := by
  simp only [recursive_remove]

/-! Node-level lemmas relating insert, find and remove. -/

theorem insert_snd_eq_find {V : Type} (n : RadixNode V) (p : KeyProbe) (e : KeyValue V) :
    wfb n = true → (recursive_insert n p e).2 = recursive_find n p := by
  induction n, p, e using recursive_insert.induct with
  | case1 e rem probe newE hm =>
    intro _
    simp only [recursive_insert, recursive_find, hm]
  | case2 e rem probe newE rp hm c rest hpop =>
    intro _
    simp only [recursive_insert, recursive_find, hm, hpop]
  | case3 e rem probe newE rp hm hpop =>
    intro _
    simp only [recursive_insert, recursive_find, hm, hpop]
  | case4 e rem probe newE si hm common difference hsplit c rest hpop =>
    intro _
    simp only [recursive_insert, recursive_find, hm, hsplit, hpop]
  | case5 e rem probe newE si hm common difference hsplit hpop =>
    intro _
    simp only [recursive_insert, recursive_find, hm, hsplit, hpop]
  | case6 e rem probe newE si rp hm common difference hsplit cOld restOld cNew restNew hpop2 hpop1 =>
    intro _
    simp only [recursive_insert, recursive_find, hm, hsplit, hpop1, hpop2]
  | case7 e rem probe newE si rp hm common difference hsplit hnone =>
    intro _
    simp only [recursive_insert, recursive_find, hm, hsplit]
  | case8 pre cs probe newE hm old ih =>
    intro hw
    simp only [wfb, Bool.and_eq_true] at hw
    obtain ⟨⟨hsort, hlist⟩, hec⟩ := hw
    cases old with
    | Interior p2 c2 e2 => simp [wfbEc] at hec
    | Leaf e2 rem2 =>
      have hrem : rem2 = [] := by
        simpa [wfbEc, List.isEmpty_iff] using hec
      subst hrem
      rw [insert_interior_complete_some hm, find_interior_complete hm]
      simp only [recursive_insert, match_with_self]
  | case9 pre cs probe newE hm =>
    intro _
    rw [insert_interior_complete_none hm, find_interior_complete hm]
  | case10 pre cs ec probe newE rp hm c rest hpop old hrc ih =>
    intro hw
    simp only [wfb, Bool.and_eq_true] at hw
    obtain ⟨⟨hsort, hlist⟩, hec⟩ := hw
    have hfc : find_child cs c = some old := by
      rw [← remove_child_snd, hrc]
    have hwold : wfb old = true := wfbList_find hlist hfc
    rw [insert_interior_partial_child hm hpop hrc,
      find_interior_partial_child hm hpop hfc]
    exact ih hwold
  | case11 pre cs ec probe newE rp hm c rest hpop hrc =>
    intro _
    have hfc : find_child cs c = none := by
      rw [← remove_child_snd, hrc]
    rw [insert_interior_partial_nochild hm hpop hrc,
      find_interior_partial_nochild hm hpop hfc]
  | case12 pre cs ec probe newE rp hm hpop =>
    intro _
    cases ec with
    | none => simp only [recursive_insert, recursive_find, hm, hpop]
    | some n2 => cases n2 <;> simp only [recursive_insert, recursive_find, hm, hpop]
  | case13 pre cs ec probe newE si hm common difference hsplit c rest hpop =>
    intro _
    have hp2 : KeyPre.pop (KeyPre.split_at pre si).2 = some (c, rest) := by
      rw [hsplit]
      exact hpop
    rw [insert_interior_longer hm hp2, find_interior_longer hm]
  | case14 pre cs ec probe newE si hm common difference hsplit hpop =>
    intro _
    rw [find_interior_longer hm]
    cases ec with
    | none =>
      simp only [recursive_insert, recursive_find, hm, hsplit, hpop]
    | some n2 =>
      cases n2 <;> simp only [recursive_insert, recursive_find, hm, hsplit, hpop]
  | case15 pre cs ec probe newE si rp hm common difference hsplit cOld restOld cNew restNew hpop2 hpop1 =>
    intro _
    have hp1 : KeyPre.pop (KeyPre.split_at pre si).2 = some (cOld, restOld) := by
      rw [hsplit]
      exact hpop1
    rw [insert_interior_incomplete hm hp1 hpop2, find_interior_incomplete hm]
  | case16 pre cs ec probe newE si rp hm common difference hsplit hnone =>
    intro _
    rw [find_interior_incomplete hm]
    cases ec with
    | none =>
      simp only [recursive_insert, recursive_find, hm, hsplit]
    | some n2 =>
      cases n2 <;> simp only [recursive_insert, recursive_find, hm, hsplit]

theorem keypre_pop_none_iff {p : KeyPre} : KeyPre.pop p = none ↔ p = [] := by
  unfold KeyPre.pop
  rcases h : p.getLast? with _ | b
  · simp [List.getLast?_eq_none_iff.mp h]
  · simp
    intro hp
    subst hp
    simp at h

theorem keypre_pop_some_iff {p : KeyPre} {b : Byte} {r : KeyPre} :
    KeyPre.pop p = some (b, r) ↔ p = r ++ [b] := by
  unfold KeyPre.pop
  constructor
  · intro h
    rcases hg : p.getLast? with _ | c
    · rw [hg] at h
      exact Option.noConfusion h
    · rw [hg] at h
      simp only [Option.some.injEq, Prod.mk.injEq] at h
      obtain ⟨hbc, hr⟩ := h
      subst hbc
      subst hr
      have hne : p ≠ [] := by
        intro hp
        subst hp
        simp at hg
      have := List.dropLast_append_getLast hne
      rw [List.getLast?_eq_getLast p hne] at hg
      injection hg with hg2
      rw [← hg2]
      exact this.symm
  · intro h
    subst h
    simp [List.getLast?_concat, List.dropLast_concat]

theorem keyprobe_pop_none_iff {q : KeyProbe} : KeyProbe.pop q = none ↔ q = [] := by
  cases q <;> simp [KeyProbe.pop]

theorem keyprobe_pop_some_iff {q : KeyProbe} {b : Byte} {r : KeyProbe} :
    KeyProbe.pop q = some (b, r) ↔ q = b :: r := by
  cases q <;> simp [KeyProbe.pop]

theorem split_at_fst {x : KeyPre} {si : Nat} {common difference : KeyPre}
    (h : KeyPre.split_at x si = (common, difference)) : common = x.take si := by
  unfold KeyPre.split_at at h
  exact (congrArg Prod.fst h).symm

theorem split_at_snd {x : KeyPre} {si : Nat} {common difference : KeyPre}
    (h : KeyPre.split_at x si = (common, difference)) : difference = x.drop si := by
  unfold KeyPre.split_at at h
  exact (congrArg Prod.snd h).symm

theorem find_insert_self {V : Type} (n : RadixNode V) (p : KeyProbe) (e : KeyValue V) :
    wfb n = true → recursive_find (recursive_insert n p e).1 p = some e.value := by
  induction n, p, e using recursive_insert.induct with
  | case1 e rem probe newE hm =>
    intro _
    simp only [recursive_insert, recursive_find, hm]
  | case2 e rem probe newE rp hm c rest hpop =>
    intro _
    simp only [recursive_insert, hm, hpop]
    rw [find_interior_partial_child hm hpop (find_child_insert_self [] c _)]
    simp only [recursive_find, match_with_self]
  | case3 e rem probe newE rp hm hpop =>
    intro _
    have h3 := match_partial_iff.mp hm
    have hrne : rp ≠ [] := by
      rw [h3.2.2]
      intro hnil
      have := List.drop_eq_nil_iff.mp hnil
      omega
    exact absurd (keyprobe_pop_none_iff.mp hpop) hrne
  | case4 e rem probe newE si hm common difference hsplit c rest hpop =>
    intro _
    simp only [recursive_insert, hm, hsplit, hpop]
    have hcommon : common = probe := by
      rw [split_at_fst hsplit]
      exact (match_longer_take hm).1
    subst hcommon
    rw [find_interior_complete (match_with_self common)]
  | case5 e rem probe newE si hm common difference hsplit hpop =>
    intro _
    obtain ⟨_, hsi, hlen⟩ := match_longer_take hm
    have hd : difference = rem.drop si := split_at_snd hsplit
    rw [keypre_pop_none_iff.mp hpop] at hd
    have : rem.length ≤ si := List.drop_eq_nil_iff.mp hd.symm
    omega
  | case6 e rem probe newE si rp hm common difference hsplit cOld restOld cNew restNew hpop2 hpop1 =>
    intro _
    simp only [recursive_insert, hm, hsplit, hpop1, hpop2]
    have hcommon : common = rem.take si := split_at_fst hsplit
    have hpm : KeyPre.match_with common probe = KeyMatchResult.PartialMatch rp := by
      rw [hcommon]
      exact match_take_partial hm
    rw [find_interior_partial_child hpm hpop2 (find_child_insert_self _ cNew _)]
    simp only [recursive_find, match_with_self]
  | case7 e rem probe newE si rp hm common difference hsplit hnone =>
    intro _
    obtain ⟨hip, _, _, _, hr, _⟩ := match_incomplete_elim hm
    have hd : difference = rem.drop si := split_at_snd hsplit
    have hdne : difference ≠ [] := by
      rw [hd]
      intro hnil
      have := List.drop_eq_nil_iff.mp hnil
      omega
    have hiq := (match_incomplete_elim hm).2.1
    have hrne : rp ≠ [] := by
      intro hnil
      rw [hnil] at hr
      have := List.drop_eq_nil_iff.mp hr.symm
      omega
    rcases h1 : KeyPre.pop difference with _ | ⟨c1, r1⟩
    · exact absurd (keypre_pop_none_iff.mp h1) hdne
    · rcases h2 : KeyProbe.pop rp with _ | ⟨c2, r2⟩
      · exact absurd (keyprobe_pop_none_iff.mp h2) hrne
      · exact absurd (hnone c1 r1 c2 r2 h1 h2) id
  | case8 pre cs probe newE hm old ih =>
    intro hw
    simp only [wfb, Bool.and_eq_true] at hw
    obtain ⟨⟨hsort, hlist⟩, hec⟩ := hw
    cases old with
    | Interior p2 c2 e2 => simp [wfbEc] at hec
    | Leaf e2 rem2 =>
      have hrem : rem2 = [] := by
        simpa [wfbEc, List.isEmpty_iff] using hec
      subst hrem
      rw [insert_interior_complete_some hm]
      rw [find_interior_complete hm]
      simp only [recursive_insert, match_with_self]
  | case9 pre cs probe newE hm =>
    intro _
    rw [insert_interior_complete_none hm]
    rw [find_interior_complete hm]
  | case10 pre cs ec probe newE rp hm c rest hpop old hrc ih =>
    intro hw
    simp only [wfb, Bool.and_eq_true] at hw
    obtain ⟨⟨hsort, hlist⟩, hec⟩ := hw
    have hfc : find_child cs c = some old := by
      rw [← remove_child_snd, hrc]
    have hwold : wfb old = true := wfbList_find hlist hfc
    rw [insert_interior_partial_child hm hpop hrc]
    rw [find_interior_partial_child hm hpop (find_child_insert_self _ c _)]
    exact ih hwold
  | case11 pre cs ec probe newE rp hm c rest hpop hrc =>
    intro _
    rw [insert_interior_partial_nochild hm hpop hrc]
    rw [find_interior_partial_child hm hpop (find_child_insert_self _ c _)]
    simp only [recursive_find, match_with_self]
  | case12 pre cs ec probe newE rp hm hpop =>
    intro _
    have h3 := match_partial_iff.mp hm
    have hrne : rp ≠ [] := by
      rw [h3.2.2]
      intro hnil
      have := List.drop_eq_nil_iff.mp hnil
      omega
    exact absurd (keyprobe_pop_none_iff.mp hpop) hrne
  | case13 pre cs ec probe newE si hm common difference hsplit c rest hpop =>
    intro _
    have hp2 : KeyPre.pop (KeyPre.split_at pre si).2 = some (c, rest) := by
      rw [hsplit]
      exact hpop
    rw [insert_interior_longer hm hp2]
    have hcommon : (KeyPre.split_at pre si).1 = probe := by
      have htake := (match_longer_take hm).1
      simpa [KeyPre.split_at] using htake
    rw [hcommon, find_interior_complete (match_with_self probe)]
  | case14 pre cs ec probe newE si hm common difference hsplit hpop =>
    intro _
    obtain ⟨_, hsi, hlen⟩ := match_longer_take hm
    have hd : difference = pre.drop si := split_at_snd hsplit
    rw [keypre_pop_none_iff.mp hpop] at hd
    have : pre.length ≤ si := List.drop_eq_nil_iff.mp hd.symm
    omega
  | case15 pre cs ec probe newE si rp hm common difference hsplit cOld restOld cNew restNew hpop2 hpop1 =>
    intro _
    have hp1 : KeyPre.pop (KeyPre.split_at pre si).2 = some (cOld, restOld) := by
      rw [hsplit]
      exact hpop1
    rw [insert_interior_incomplete hm hp1 hpop2]
    have hpm : KeyPre.match_with (KeyPre.split_at pre si).1 probe =
        KeyMatchResult.PartialMatch rp := match_take_partial hm
    rw [find_interior_partial_child hpm hpop2 (find_child_insert_self _ cNew _)]
    simp only [recursive_find, match_with_self]
  | case16 pre cs ec probe newE si rp hm common difference hsplit hnone =>
    intro _
    obtain ⟨hip, hiq, _, _, hr, _⟩ := match_incomplete_elim hm
    have hd : difference = pre.drop si := split_at_snd hsplit
    have hdne : difference ≠ [] := by
      rw [hd]
      intro hnil
      have := List.drop_eq_nil_iff.mp hnil
      omega
    have hrne : rp ≠ [] := by
      intro hnil
      rw [hnil] at hr
      have := List.drop_eq_nil_iff.mp hr.symm
      omega
    rcases h1 : KeyPre.pop difference with _ | ⟨c1, r1⟩
    · exact absurd (keypre_pop_none_iff.mp h1) hdne
    · rcases h2 : KeyProbe.pop rp with _ | ⟨c2, r2⟩
      · exact absurd (keyprobe_pop_none_iff.mp h2) hrne
      · exact absurd (hnone c1 r1 c2 r2 h1 h2) id

theorem wfb_insert {V : Type} (n : RadixNode V) (p : KeyProbe) (e : KeyValue V) :
    wfb n = true → wfb (recursive_insert n p e).1 = true := by
  induction n, p, e using recursive_insert.induct with
  | case1 e rem probe newE hm =>
    intro _
    simp [recursive_insert, hm, wfb]
  | case2 e rem probe newE rp hm c rest hpop =>
    intro _
    simp [recursive_insert, hm, hpop, wfb, wfbList, wfbEc, sortedKeysb,
      insert_child_list]
  | case3 e rem probe newE rp hm hpop =>
    intro _
    simp [recursive_insert, hm, hpop, wfb]
  | case4 e rem probe newE si hm common difference hsplit c rest hpop =>
    intro _
    simp [recursive_insert, hm, hsplit, hpop, wfb, wfbList, wfbEc, sortedKeysb,
      insert_child_list]
  | case5 e rem probe newE si hm common difference hsplit hpop =>
    intro _
    simp [recursive_insert, hm, hsplit, hpop, wfb]
  | case6 e rem probe newE si rp hm common difference hsplit cOld restOld cNew restNew hpop2 hpop1 =>
    intro _
    simp only [recursive_insert, hm, hsplit, hpop1, hpop2]
    have hs0 : sortedKeysb (insert_child_list [] cOld
        (RadixNode.Leaf e restOld) : List (Byte × RadixNode V) × _).1 = true := by
      simp [insert_child_list, sortedKeysb]
    have hw0 : wfbList (insert_child_list [] cOld
        (RadixNode.Leaf e restOld) : List (Byte × RadixNode V) × _).1 = true := by
      simp [insert_child_list, wfbList, wfb]
    simp only [wfb, Bool.and_eq_true]
    exact ⟨⟨sorted_insert _ _ hs0, wfbList_insert hw0 (by simp [wfb])⟩, by simp [wfbEc]⟩
  | case7 e rem probe newE si rp hm common difference hsplit hnone =>
    intro hw
    simp only [recursive_insert, hm, hsplit]
    exact hw
  | case8 pre cs probe newE hm old ih =>
    intro hw
    simp only [wfb, Bool.and_eq_true] at hw
    obtain ⟨⟨hsort, hlist⟩, hec⟩ := hw
    cases old with
    | Interior p2 c2 e2 => simp [wfbEc] at hec
    | Leaf e2 rem2 =>
      have hrem : rem2 = [] := by
        simpa [wfbEc, List.isEmpty_iff] using hec
      subst hrem
      rw [insert_interior_complete_some hm]
      simp only [recursive_insert, match_with_self]
      simp [wfb, wfbEc, hsort, hlist]
  | case9 pre cs probe newE hm =>
    intro hw
    simp only [wfb, Bool.and_eq_true] at hw
    obtain ⟨⟨hsort, hlist⟩, hec⟩ := hw
    rw [insert_interior_complete_none hm]
    simp [wfb, wfbEc, hsort, hlist]
  | case10 pre cs ec probe newE rp hm c rest hpop old hrc ih =>
    intro hw
    simp only [wfb, Bool.and_eq_true] at hw
    obtain ⟨⟨hsort, hlist⟩, hec⟩ := hw
    have hfc : find_child cs c = some old := by
      rw [← remove_child_snd, hrc]
    have hwold : wfb old = true := wfbList_find hlist hfc
    rw [insert_interior_partial_child hm hpop hrc]
    simp only [wfb, Bool.and_eq_true]
    refine ⟨⟨sorted_insert _ _ (sorted_remove _ hsort), ?_⟩, hec⟩
    exact wfbList_insert (wfbList_remove _ hlist) (ih hwold)
  | case11 pre cs ec probe newE rp hm c rest hpop hrc =>
    intro hw
    simp only [wfb, Bool.and_eq_true] at hw
    obtain ⟨⟨hsort, hlist⟩, hec⟩ := hw
    rw [insert_interior_partial_nochild hm hpop hrc]
    simp only [wfb, Bool.and_eq_true]
    exact ⟨⟨sorted_insert _ _ hsort, wfbList_insert hlist (by simp [wfb])⟩, hec⟩
  | case12 pre cs ec probe newE rp hm hpop =>
    intro hw
    cases ec <;> simp only [recursive_insert, hm, hpop] <;> exact hw
  | case13 pre cs ec probe newE si hm common difference hsplit c rest hpop =>
    intro hw
    simp only [wfb, Bool.and_eq_true] at hw
    obtain ⟨⟨hsort, hlist⟩, hec⟩ := hw
    have hp2 : KeyPre.pop (KeyPre.split_at pre si).2 = some (c, rest) := by
      rw [hsplit]
      exact hpop
    rw [insert_interior_longer hm hp2]
    simp only [wfb, Bool.and_eq_true]
    refine ⟨⟨?_, ?_⟩, by simp [wfbEc]⟩
    · simp [insert_child_list, sortedKeysb]
    · simp [insert_child_list, wfbList, wfb, hsort, hlist, hec]
  | case14 pre cs ec probe newE si hm common difference hsplit hpop =>
    intro hw
    cases ec <;> simp only [recursive_insert, hm, hsplit, hpop] <;> exact hw
  | case15 pre cs ec probe newE si rp hm common difference hsplit cOld restOld cNew restNew hpop2 hpop1 =>
    intro hw
    simp only [wfb, Bool.and_eq_true] at hw
    obtain ⟨⟨hsort, hlist⟩, hec⟩ := hw
    have hp1 : KeyPre.pop (KeyPre.split_at pre si).2 = some (cOld, restOld) := by
      rw [hsplit]
      exact hpop1
    rw [insert_interior_incomplete hm hp1 hpop2]
    simp only [wfb, Bool.and_eq_true]
    have hs0 : sortedKeysb (insert_child_list []
        cOld (RadixNode.Interior restOld cs ec) : List (Byte × RadixNode V) × _).1 = true := by
      simp [insert_child_list, sortedKeysb]
    have hw0 : wfbList (insert_child_list []
        cOld (RadixNode.Interior restOld cs ec) : List (Byte × RadixNode V) × _).1 = true := by
      simp [insert_child_list, wfbList]
      simp [wfb, hsort, hlist, hec]
    refine ⟨⟨sorted_insert _ _ hs0, wfbList_insert hw0 (by simp [wfb])⟩, by simp [wfbEc]⟩
  | case16 pre cs ec probe newE si rp hm common difference hsplit hnone =>
    intro hw
    cases ec <;> simp only [recursive_insert, hm, hsplit] <;> exact hw

theorem remove_snd_eq_find {V : Type} (n : RadixNode V) (p : KeyProbe) :
    wfb n = true → (recursive_remove n p).2 = recursive_find n p := by
  induction n, p using recursive_remove.induct with
  | case1 e rem probe hm =>
    intro _
    simp only [recursive_remove, recursive_find, hm]
  | case2 e rem probe hnc =>
    intro _
    rcases hm2 : KeyPre.match_with rem probe with rp | - | si | ⟨si, rp⟩
    · simp only [recursive_remove, recursive_find, hm2]
    · exact absurd hm2 hnc
    · simp only [recursive_remove, recursive_find, hm2]
    · simp only [recursive_remove, recursive_find, hm2]
  | case3 pre cs probe hm old ih =>
    intro hw
    simp only [wfb, Bool.and_eq_true] at hw
    obtain ⟨⟨hsort, hlist⟩, hec⟩ := hw
    cases old with
    | Interior p2 c2 e2 => simp [wfbEc] at hec
    | Leaf e2 rem2 =>
      have hrem : rem2 = [] := by
        simpa [wfbEc, List.isEmpty_iff] using hec
      subst hrem
      rw [remove_interior_complete_some hm, find_interior_complete hm]
      simp only [recursive_remove, match_with_self]
  | case4 pre cs probe hm =>
    intro _
    rw [remove_interior_complete_none hm, find_interior_complete hm]
  | case5 pre cs ec probe rp hm c rest hpop old hrc ih =>
    intro hw
    simp only [wfb, Bool.and_eq_true] at hw
    obtain ⟨⟨hsort, hlist⟩, hec⟩ := hw
    have hfc : find_child cs c = some old := by
      rw [← remove_child_snd, hrc]
    have hwold : wfb old = true := wfbList_find hlist hfc
    rw [remove_interior_partial_child hm hpop hrc,
      find_interior_partial_child hm hpop hfc]
    exact ih hwold
  | case6 pre cs ec probe rp hm c rest hpop hrc =>
    intro _
    have hfc : find_child cs c = none := by
      rw [← remove_child_snd, hrc]
    rw [remove_interior_partial_nochild hm hpop hrc,
      find_interior_partial_nochild hm hpop hfc]
  | case7 pre cs ec probe rp hm hpop =>
    intro _
    cases ec with
    | none => simp only [recursive_remove, recursive_find, hm, hpop]
    | some n2 => cases n2 <;> simp only [recursive_remove, recursive_find, hm, hpop]
  | case8 pre cs ec probe hnc hnp =>
    intro _
    rcases hm2 : KeyPre.match_with pre probe with rp | - | si | ⟨si, rp⟩
    · exact absurd hm2 (hnp rp)
    · exact absurd hm2 hnc
    · rw [remove_interior_longer hm2, find_interior_longer hm2]
    · rw [remove_interior_incomplete hm2, find_interior_incomplete hm2]

theorem remove_miss_unchanged {V : Type} (n : RadixNode V) (p : KeyProbe) :
    wfb n = true → recursive_find n p = none →
      (recursive_remove n p).1 = some n := by
  induction n, p using recursive_remove.induct with
  | case1 e rem probe hm =>
    intro _ hf
    simp [recursive_find, hm] at hf
  | case2 e rem probe hnc =>
    intro _ _
    rcases hm2 : KeyPre.match_with rem probe with rp | - | si | ⟨si, rp⟩
    · simp only [recursive_remove, hm2]
    · exact absurd hm2 hnc
    · simp only [recursive_remove, hm2]
    · simp only [recursive_remove, hm2]
  | case3 pre cs probe hm old ih =>
    intro hw hf
    simp only [wfb, Bool.and_eq_true] at hw
    obtain ⟨⟨hsort, hlist⟩, hec⟩ := hw
    cases old with
    | Interior p2 c2 e2 => simp [wfbEc] at hec
    | Leaf e2 rem2 =>
      rw [find_interior_complete hm] at hf
      simp at hf
  | case4 pre cs probe hm =>
    intro _ _
    rw [remove_interior_complete_none hm]
  | case5 pre cs ec probe rp hm c rest hpop old hrc ih =>
    intro hw hf
    simp only [wfb, Bool.and_eq_true] at hw
    obtain ⟨⟨hsort, hlist⟩, hec⟩ := hw
    have hfc : find_child cs c = some old := by
      rw [← remove_child_snd, hrc]
    have hwold : wfb old = true := wfbList_find hlist hfc
    rw [find_interior_partial_child hm hpop hfc] at hf
    rw [remove_interior_partial_child hm hpop hrc]
    rw [ih hwold hf]
    simp only [reinstall_child]
    rw [insert_remove_roundtrip hsort (Prod.ext rfl hrc)]
  | case6 pre cs ec probe rp hm c rest hpop hrc =>
    intro _ _
    rw [remove_interior_partial_nochild hm hpop hrc]
  | case7 pre cs ec probe rp hm hpop =>
    intro _ _
    cases ec with
    | none => simp only [recursive_remove, hm, hpop]
    | some n2 => cases n2 <;> simp only [recursive_remove, hm, hpop]
  | case8 pre cs ec probe hnc hnp =>
    intro _ _
    rcases hm2 : KeyPre.match_with pre probe with rp | - | si | ⟨si, rp⟩
    · exact absurd hm2 (hnp rp)
    · exact absurd hm2 hnc
    · rw [remove_interior_longer hm2]
    · rw [remove_interior_incomplete hm2]

theorem find_interior_popnone {V : Type} {pre : KeyPre}
    {cs : List (Byte × RadixNode V)} {ec : Option (RadixNode V)}
    {probe rp : KeyProbe}
    (hm : KeyPre.match_with pre probe = KeyMatchResult.PartialMatch rp)
    (hpop : KeyProbe.pop rp = none) :
    recursive_find (RadixNode.Interior pre cs ec) probe = none := by
  cases ec with
  | none => simp only [recursive_find, hm, hpop]
  | some n2 => cases n2 <;> simp only [recursive_find, hm, hpop]

theorem match_partial_append {p : KeyPre} {q r : KeyProbe}
    (h : KeyPre.match_with p q = KeyMatchResult.PartialMatch r) : q = p ++ r := by
  obtain ⟨hp, hlen, hr⟩ := match_partial_iff.mp h
  rw [hr]
  conv_lhs => rw [← List.take_append_drop p.length q]
  have : q.take p.length = p := (List.prefix_iff_eq_take.mp hp).symm
  rw [this]

theorem find_remove_self {V : Type} (n : RadixNode V) (p : KeyProbe) :
    wfb n = true → findOpt (recursive_remove n p).1 p = none := by
  induction n, p using recursive_remove.induct with
  | case1 e rem probe hm =>
    intro _
    simp only [recursive_remove, hm, findOpt]
  | case2 e rem probe hnc =>
    intro _
    rcases hm2 : KeyPre.match_with rem probe with rp | - | si | ⟨si, rp⟩
    · simp only [recursive_remove, hm2, findOpt, recursive_find]
    · exact absurd hm2 hnc
    · simp only [recursive_remove, hm2, findOpt, recursive_find]
    · simp only [recursive_remove, hm2, findOpt, recursive_find]
  | case3 pre cs probe hm old ih =>
    intro hw
    simp only [wfb, Bool.and_eq_true] at hw
    obtain ⟨⟨hsort, hlist⟩, hec⟩ := hw
    cases old with
    | Interior p2 c2 e2 => simp [wfbEc] at hec
    | Leaf e2 rem2 =>
      have hrem : rem2 = [] := by
        simpa [wfbEc, List.isEmpty_iff] using hec
      subst hrem
      rw [remove_interior_complete_some hm]
      simp only [recursive_remove, match_with_self, findOpt]
      rw [find_interior_complete hm]
  | case4 pre cs probe hm =>
    intro _
    rw [remove_interior_complete_none hm]
    simp only [findOpt]
    rw [find_interior_complete hm]
  | case5 pre cs ec probe rp hm c rest hpop old hrc ih =>
    intro hw
    simp only [wfb, Bool.and_eq_true] at hw
    obtain ⟨⟨hsort, hlist⟩, hec⟩ := hw
    have hfc : find_child cs c = some old := by
      rw [← remove_child_snd, hrc]
    have hwold : wfb old = true := wfbList_find hlist hfc
    rw [remove_interior_partial_child hm hpop hrc]
    rcases hupd : (recursive_remove old rest).1 with _ | u
    · simp only [findOpt, reinstall_child, hupd]
      rw [find_interior_partial_nochild hm hpop (find_child_remove_self hsort)]
    · simp only [findOpt, reinstall_child, hupd]
      rw [find_interior_partial_child hm hpop (find_child_insert_self _ c _)]
      have hx := ih hwold
      rw [hupd] at hx
      simpa [findOpt] using hx
  | case6 pre cs ec probe rp hm c rest hpop hrc =>
    intro _
    have hfc : find_child cs c = none := by
      rw [← remove_child_snd, hrc]
    rw [remove_interior_partial_nochild hm hpop hrc]
    simp only [findOpt]
    rw [find_interior_partial_nochild hm hpop hfc]
  | case7 pre cs ec probe rp hm hpop =>
    intro _
    cases ec with
    | none => simp only [recursive_remove, hm, hpop, findOpt, recursive_find]
    | some n2 =>
      cases n2 <;> simp only [recursive_remove, hm, hpop, findOpt, recursive_find]
  | case8 pre cs ec probe hnc hnp =>
    intro _
    rcases hm2 : KeyPre.match_with pre probe with rp | - | si | ⟨si, rp⟩
    · exact absurd hm2 (hnp rp)
    · exact absurd hm2 hnc
    · rw [remove_interior_longer hm2]
      simp only [findOpt]
      rw [find_interior_longer hm2]
    · rw [remove_interior_incomplete hm2]
      simp only [findOpt]
      rw [find_interior_incomplete hm2]

theorem find_remove_other {V : Type} (n : RadixNode V) (p : KeyProbe) :
    wfb n = true → ∀ q, q ≠ p →
      findOpt (recursive_remove n p).1 q = recursive_find n q := by
  induction n, p using recursive_remove.induct with
  | case1 e rem probe hm =>
    intro _ q hq
    have hrp : rem = probe := match_complete_iff.mp hm
    simp only [recursive_remove, hm, findOpt]
    rcases hm2 : KeyPre.match_with rem q with rq | - | si | ⟨si, rq⟩
    · simp only [recursive_find, hm2]
    · have h2 : rem = q := match_complete_iff.mp hm2
      exact absurd (h2.symm.trans hrp) hq
    · simp only [recursive_find, hm2]
    · simp only [recursive_find, hm2]
  | case2 e rem probe hnc =>
    intro _ q _
    rcases hm2 : KeyPre.match_with rem probe with rp | - | si | ⟨si, rp⟩
    · simp only [recursive_remove, hm2, findOpt]
    · exact absurd hm2 hnc
    · simp only [recursive_remove, hm2, findOpt]
    · simp only [recursive_remove, hm2, findOpt]
  | case3 pre cs probe hm old ih =>
    intro hw q hq
    simp only [wfb, Bool.and_eq_true] at hw
    obtain ⟨⟨hsort, hlist⟩, hec⟩ := hw
    cases old with
    | Interior p2 c2 e2 => simp [wfbEc] at hec
    | Leaf e2 rem2 =>
      have hrem : rem2 = [] := by
        simpa [wfbEc, List.isEmpty_iff] using hec
      subst hrem
      have hpp : pre = probe := match_complete_iff.mp hm
      rw [remove_interior_complete_some hm]
      simp only [recursive_remove, match_with_self, findOpt]
      rcases hm2 : KeyPre.match_with pre q with rq | - | si | ⟨si, rq⟩
      · rcases hqp : KeyProbe.pop rq with _ | ⟨cq, rq2⟩
        · simp only [recursive_find, hm2, hqp]
        · rcases hfc : find_child cs cq with _ | ch
          · rw [find_interior_partial_nochild hm2 hqp hfc,
              find_interior_partial_nochild hm2 hqp hfc]
          · rw [find_interior_partial_child hm2 hqp hfc,
              find_interior_partial_child hm2 hqp hfc]
      · have h2 : pre = q := match_complete_iff.mp hm2
        exact absurd (h2.symm.trans hpp) hq
      · rw [find_interior_longer hm2, find_interior_longer hm2]
      · rw [find_interior_incomplete hm2, find_interior_incomplete hm2]
  | case4 pre cs probe hm =>
    intro _ q _
    rw [remove_interior_complete_none hm]
    simp only [findOpt]
  | case5 pre cs ec probe rp hm c rest hpop old hrc ih =>
    intro hw q hq
    simp only [wfb, Bool.and_eq_true] at hw
    obtain ⟨⟨hsort, hlist⟩, hec⟩ := hw
    have hfc : find_child cs c = some old := by
      rw [← remove_child_snd, hrc]
    have hwold : wfb old = true := wfbList_find hlist hfc
    have hprobe : probe = pre ++ rp := match_partial_append hm
    have hrp : rp = c :: rest := keyprobe_pop_some_iff.mp hpop
    rw [remove_interior_partial_child hm hpop hrc]
    rcases hm2 : KeyPre.match_with pre q with rq | - | si | ⟨si, rq⟩
    · have hqeq : q = pre ++ rq := match_partial_append hm2
      rcases hqp : KeyProbe.pop rq with _ | ⟨cq, rq2⟩
      · rcases hupd : (recursive_remove old rest).1 with _ | u <;>
          simp only [findOpt, reinstall_child, hupd] <;>
          rw [find_interior_popnone hm2 hqp, find_interior_popnone hm2 hqp]
      · have hrq : rq = cq :: rq2 := keyprobe_pop_some_iff.mp hqp
        by_cases hcc : cq = c
        · subst hcc
          have hrest : rq2 ≠ rest := by
            intro hx
            apply hq
            rw [hqeq, hprobe, hrq, hrp, hx]
          have hih := ih hwold rq2 hrest
          rcases hupd : (recursive_remove old rest).1 with _ | u
          · rw [hupd] at hih
            simp only [findOpt] at hih
            simp only [findOpt, reinstall_child, hupd]
            rw [find_interior_partial_nochild hm2 hqp (find_child_remove_self hsort),
              find_interior_partial_child hm2 hqp hfc]
            exact hih
          · rw [hupd] at hih
            simp only [findOpt] at hih
            simp only [findOpt, reinstall_child, hupd]
            rw [find_interior_partial_child hm2 hqp (find_child_insert_self _ cq _),
              find_interior_partial_child hm2 hqp hfc]
            exact hih
        · rcases hupd : (recursive_remove old rest).1 with _ | u <;>
            simp only [findOpt, reinstall_child, hupd] <;>
            rcases hfcq : find_child cs cq with _ | ch
          · rw [find_interior_partial_nochild hm2 hqp (by
              rw [find_child_remove_other hcc, hfcq]),
              find_interior_partial_nochild hm2 hqp hfcq]
          · rw [find_interior_partial_child hm2 hqp (by
              rw [find_child_remove_other hcc, hfcq]),
              find_interior_partial_child hm2 hqp hfcq]
          · rw [find_interior_partial_nochild hm2 hqp (by
              rw [find_child_insert_other _ hcc, find_child_remove_other hcc, hfcq]),
              find_interior_partial_nochild hm2 hqp hfcq]
          · rw [find_interior_partial_child hm2 hqp (by
              rw [find_child_insert_other _ hcc, find_child_remove_other hcc, hfcq]),
              find_interior_partial_child hm2 hqp hfcq]
    · rcases hupd : (recursive_remove old rest).1 with _ | u <;>
        simp only [findOpt, reinstall_child, hupd] <;>
        rw [find_interior_complete hm2, find_interior_complete hm2]
    · rcases hupd : (recursive_remove old rest).1 with _ | u <;>
        simp only [findOpt, reinstall_child, hupd] <;>
        rw [find_interior_longer hm2, find_interior_longer hm2]
    · rcases hupd : (recursive_remove old rest).1 with _ | u <;>
        simp only [findOpt, reinstall_child, hupd] <;>
        rw [find_interior_incomplete hm2, find_interior_incomplete hm2]
  | case6 pre cs ec probe rp hm c rest hpop hrc =>
    intro _ q _
    rw [remove_interior_partial_nochild hm hpop hrc]
    simp only [findOpt]
  | case7 pre cs ec probe rp hm hpop =>
    intro _ q _
    cases ec with
    | none => simp only [recursive_remove, hm, hpop, findOpt]
    | some n2 => cases n2 <;> simp only [recursive_remove, hm, hpop, findOpt]
  | case8 pre cs ec probe hnc hnp =>
    intro _ q _
    rcases hm2 : KeyPre.match_with pre probe with rp | - | si | ⟨si, rp⟩
    · exact absurd hm2 (hnp rp)
    · exact absurd hm2 hnc
    · rw [remove_interior_longer hm2]
      simp only [findOpt]
    · rw [remove_interior_incomplete hm2]
      simp only [findOpt]

theorem entryCount_find_child_le {V : Type} {l : List (Byte × RadixNode V)}
    {b : Byte} {m : RadixNode V} (h : find_child l b = some m) :
    entryCount m ≤ entryCountList l := by
  induction l with
  | nil => simp [find_child] at h
  | cons hd tl ih =>
    obtain ⟨c, n⟩ := hd
    by_cases heq : b = c
    · simp [find_child, heq] at h
      subst h
      simp [entryCountList]
    · simp [find_child, heq] at h
      have := ih h
      simp [entryCountList]
      omega

theorem find_some_entryCount {V : Type} (n : RadixNode V) (p : KeyProbe) {v : V}
    (h : recursive_find n p = some v) : 1 ≤ entryCount n := by
  induction n, p using recursive_find.induct with
  | case1 pre cs probe hm e rem2 =>
    simp [entryCount, entryCountList, entryCountEc]
  | case2 pre cs probe hm p2 c2 e2 =>
    rw [find_interior_complete hm] at h
    simp at h
  | case3 pre cs probe hm =>
    rw [find_interior_complete hm] at h
    simp at h
  | case4 pre cs ec probe rp hm c rest hpop old hfc ih =>
    rw [find_interior_partial_child hm hpop hfc] at h
    have h1 := ih h
    have h2 := entryCount_find_child_le hfc
    simp [entryCount]
    omega
  | case5 pre cs ec probe rp hm c rest hpop hfc =>
    rw [find_interior_partial_nochild hm hpop hfc] at h
    exact absurd h (by simp)
  | case6 pre cs ec probe rp hm hpop =>
    rw [find_interior_popnone hm hpop] at h
    exact absurd h (by simp)
  | case7 pre cs ec probe hnc hnp =>
    rcases hm2 : KeyPre.match_with pre probe with rq | - | si | ⟨si, rq⟩
    · exact absurd hm2 (hnp rq)
    · exact absurd hm2 hnc
    · rw [find_interior_longer hm2] at h
      exact absurd h (by simp)
    · rw [find_interior_incomplete hm2] at h
      exact absurd h (by simp)
  | case8 e rem probe hm =>
    simp [entryCount]
  | case9 e rem probe hnc =>
    simp [entryCount]

/-! Tree-level helper lemmas. -/

theorem tree_get_eq_findOpt {V : Type} (t : RadixTree V) (k : List Byte) :
    t.get k = findOpt t.root k := by
  unfold RadixTree.get findOpt
  cases t.root <;> rfl

theorem tree_wf_root {V : Type} {t : RadixTree V} {r : RadixNode V}
    (hw : t.wf = true) (hroot : t.root = some r) : wfb r = true := by
  unfold RadixTree.wf at hw
  rw [hroot] at hw
  exact hw

theorem tree_insert_snd {V : Type} (t : RadixTree V) (k : List Byte) (v : V)
    (hw : t.wf = true) : (t.insert k v).2 = t.get k := by
  unfold RadixTree.insert RadixTree.get
  cases hroot : t.root with
  | none => simp
  | some r =>
    simp only []
    exact insert_snd_eq_find r k _ (tree_wf_root hw hroot)

theorem tree_insert_get_self {V : Type} (t : RadixTree V) (k : List Byte) (v : V)
    (hw : t.wf = true) : (t.insert k v).1.get k = some v := by
  unfold RadixTree.insert
  cases hroot : t.root with
  | none =>
    simp only [RadixTree.get, RadixNode.new_leaf]
    simp only [recursive_find, match_with_self]
  | some r =>
    have hwr := tree_wf_root hw hroot
    simp only []
    by_cases ho : ((recursive_insert r k { key := k, value := v }).2).isNone
    · simp only [ho, if_pos, RadixTree.get]
      exact find_insert_self r k _ hwr
    · simp only [ho, if_neg, RadixTree.get]
      exact find_insert_self r k _ hwr

theorem tree_insert_wf {V : Type} (t : RadixTree V) (k : List Byte) (v : V)
    (hw : t.wf = true) : (t.insert k v).1.wf = true := by
  unfold RadixTree.insert
  cases hroot : t.root with
  | none =>
    simp only [RadixTree.wf, RadixNode.new_leaf, wfb]
  | some r =>
    have hwr := tree_wf_root hw hroot
    simp only []
    by_cases ho : ((recursive_insert r k { key := k, value := v }).2).isNone
    · simp only [ho, if_pos, RadixTree.wf]
      exact wfb_insert r k _ hwr
    · simp only [ho, if_neg, RadixTree.wf]
      exact wfb_insert r k _ hwr

theorem tree_insert_len_replaced {V : Type} (t : RadixTree V) (k : List Byte) (v : V)
    {w : V} (hv : (t.insert k v).2 = some w) : (t.insert k v).1.len = t.len := by
  unfold RadixTree.insert at hv ⊢
  cases hroot : t.root with
  | none =>
    rw [hroot] at hv
    simp at hv
  | some r =>
    rw [hroot] at hv
    simp only [] at hv
    simp only [RadixTree.len]
    rw [hv]
    simp [RadixTree.len]

theorem tree_remove_snd {V : Type} (t : RadixTree V) (k : List Byte)
    (hw : t.wf = true) : (t.remove k).2 = t.get k := by
  unfold RadixTree.remove RadixTree.get
  cases hroot : t.root with
  | none => simp
  | some r =>
    simp only []
    exact remove_snd_eq_find r k (tree_wf_root hw hroot)

theorem tree_remove_get_self {V : Type} (t : RadixTree V) (k : List Byte)
    (hw : t.wf = true) : (t.remove k).1.get k = none := by
  unfold RadixTree.remove
  cases hroot : t.root with
  | none =>
    simp only []
    rw [tree_get_eq_findOpt, hroot]
    rfl
  | some r =>
    have hwr := tree_wf_root hw hroot
    simp only []
    by_cases ho : ((recursive_remove r k).2).isSome = true <;>
      simp only [ho, if_true, if_false, Bool.false_eq_true] <;>
      rw [tree_get_eq_findOpt] <;>
      exact find_remove_self r k hwr

theorem tree_remove_get_other {V : Type} (t : RadixTree V) (k : List Byte)
    (hw : t.wf = true) : ∀ q, q ≠ k → (t.remove k).1.get q = t.get q := by
  intro q hq
  unfold RadixTree.remove
  cases hroot : t.root with
  | none => simp only []
  | some r =>
    have hwr := tree_wf_root hw hroot
    simp only []
    rw [tree_get_eq_findOpt t, hroot]
    by_cases ho : ((recursive_remove r k).2).isSome = true <;>
      simp only [ho, if_true, if_false, Bool.false_eq_true] <;>
      rw [tree_get_eq_findOpt] <;>
      exact find_remove_other r k hwr q hq

theorem tree_remove_len_removed {V : Type} (t : RadixTree V) (k : List Byte)
    {v : V} (hsome : (t.remove k).2 = some v) :
    (t.remove k).1.len = t.len - 1 := by
  unfold RadixTree.remove at hsome ⊢
  cases hroot : t.root with
  | none =>
    rw [hroot] at hsome
    simp at hsome
  | some r =>
    rw [hroot] at hsome
    simp only [] at hsome
    simp only [RadixTree.len]
    rw [hsome]
    simp [RadixTree.len]

theorem tree_remove_absent {V : Type} (t : RadixTree V) (k : List Byte)
    (hw : t.wf = true) (hget : t.get k = none) : t.remove k = (t, none) := by
  unfold RadixTree.remove
  cases hroot : t.root with
  | none => simp only []
  | some r =>
    have hwr := tree_wf_root hw hroot
    rw [tree_get_eq_findOpt, hroot] at hget
    simp only [findOpt] at hget
    have h2 : (recursive_remove r k).2 = none := by
      rw [remove_snd_eq_find r k hwr, hget]
    have h1 : (recursive_remove r k).1 = some r :=
      remove_miss_unchanged r k hwr hget
    simp only [h1, h2, Option.isSome_none, Bool.false_eq_true, if_false]
    cases t with
    | mk size root =>
      simp only [] at hroot
      rw [hroot]

/-! Claim theorems. -/

/-- Claim C1 is refuted by the code: in the Leaf Incomplete split at the spec
example (stored key abcXY, inserted key abcZW, shared prefix abc), the branch
byte installed for the displaced leaf is 89, the LAST byte of the post-split
difference [88, 89] (KeyPrefix pop removes the final element), and the
displaced leaf keeps remaining key [88]; the claim requires branch byte 88
with remaining key [89]. -/
theorem claim_C1_split_takes_last_byte :
    recursive_insert
      (RadixNode.Leaf { key := [97, 98, 99, 88, 89], value := (1 : Nat) }
        [97, 98, 99, 88, 89])
      [97, 98, 99, 90, 87] { key := [97, 98, 99, 90, 87], value := 2 } =
      (RadixNode.Interior [97, 98, 99]
        [(89, RadixNode.Leaf { key := [97, 98, 99, 88, 89], value := 1 } [88]),
         (90, RadixNode.Leaf { key := [97, 98, 99, 90, 87], value := 2 } [87])]
        none, none) := by
  simp [recursive_insert, KeyPre.match_with, KeyPre.diff_index, KeyPre.split_at,
    KeyPre.pop, KeyProbe.pop, List.isPrefixOf, insert_child_list,
    List.range, List.range.loop]

/-- Claim C2 is refuted by the code: after inserting abcXY and abcZW (the
divergence test the spec demands), getting abcXY misses even though it was
inserted and never overwritten; the sibling key abcZW is still found and the
size counter reads 2. -/
theorem claim_C2_roundtrip_fails :
    c2tree.get [97, 98, 99, 88, 89] = none ∧
    c2tree.get [97, 98, 99, 90, 87] = some 2 ∧
    c2tree.len = 2 := by
  refine ⟨?_, ?_, ?_⟩ <;>
    simp [c2tree, RadixTree.insert, RadixTree.get, RadixTree.new, RadixTree.len,
      RadixNode.new_leaf, recursive_insert, recursive_find, KeyPre.match_with,
      KeyPre.diff_index, KeyPre.split_at, KeyPre.pop, KeyProbe.pop,
      List.isPrefixOf, insert_child_list, find_child, List.range, List.range.loop]

/-- Claim C3 is refuted by the code: clear drops the root, so every get
misses, but it does not reset the size counter, so after one insert and a
clear the length is still 1 and is_empty is false. -/
theorem claim_C3_clear_keeps_size :
    c3tree.len = 1 ∧ c3tree.is_empty = false ∧ ∀ k, c3tree.get k = none := by
  refine ⟨rfl, rfl, fun k => rfl⟩

/-- Claim C4 is refuted by the code: after inserting ZX then XZ the split
bytes collide (both are 88 under last-byte extraction), the first entry is
silently dropped, and the tree maps exactly one key while the size counter
reads 2. -/
theorem claim_C4_len_exceeds_mapped :
    c4tree.len = 2 ∧ c4tree.get [90, 88] = none ∧ c4tree.get [88, 90] = some 2 ∧
    ∀ k v, c4tree.get k = some v → k = [88, 90] ∧ v = 2 := by
  have hroot : c4tree.root =
      some (RadixNode.Interior []
        [(88, RadixNode.Leaf { key := [88, 90], value := (2 : Nat) } [90])] none) := by
    simp [c4tree, RadixTree.insert, RadixTree.new, RadixNode.new_leaf,
      recursive_insert, KeyPre.match_with, KeyPre.diff_index, KeyPre.split_at,
      KeyPre.pop, KeyProbe.pop, List.isPrefixOf, insert_child_list,
      List.range, List.range.loop]
  refine ⟨?_, ?_, ?_, ?_⟩
  · simp [c4tree, RadixTree.insert, RadixTree.new, RadixTree.len,
      RadixNode.new_leaf, recursive_insert, KeyPre.match_with, KeyPre.diff_index,
      KeyPre.split_at, KeyPre.pop, KeyProbe.pop, List.isPrefixOf,
      insert_child_list, List.range, List.range.loop]
  · rw [tree_get_eq_findOpt, hroot]
    simp only [findOpt]
    have hm : KeyPre.match_with [] [90, 88] = KeyMatchResult.PartialMatch [90, 88] := by
      simp [KeyPre.match_with, List.isPrefixOf]
    rw [find_interior_partial_nochild hm rfl (by simp [find_child])]
  · rw [tree_get_eq_findOpt, hroot]
    simp only [findOpt]
    have hm : KeyPre.match_with [] [88, 90] = KeyMatchResult.PartialMatch [88, 90] := by
      simp [KeyPre.match_with, List.isPrefixOf]
    have hfc : find_child
        [(88, RadixNode.Leaf { key := [88, 90], value := (2 : Nat) } [90])] 88 =
        some (RadixNode.Leaf { key := [88, 90], value := 2 } [90]) := by
      simp [find_child]
    rw [find_interior_partial_child hm rfl hfc]
    simp [recursive_find, KeyPre.match_with, List.isPrefixOf]
  · intro k v h
    rw [tree_get_eq_findOpt, hroot] at h
    simp only [findOpt] at h
    cases k with
    | nil =>
      rw [find_interior_complete (match_with_self [])] at h
      simp at h
    | cons c rest =>
      have hm : KeyPre.match_with [] (c :: rest) =
          KeyMatchResult.PartialMatch (c :: rest) := by
        simp [KeyPre.match_with, List.isPrefixOf]
      by_cases hc : c = 88
      · subst hc
        have hfc : find_child
            [(88, RadixNode.Leaf { key := [88, 90], value := (2 : Nat) } [90])] 88 =
            some (RadixNode.Leaf { key := [88, 90], value := 2 } [90]) := by
          simp [find_child]
        rw [find_interior_partial_child hm rfl hfc] at h
        rw [find_leaf] at h
        rcases hm3 : KeyPre.match_with [90] rest with rq | - | si | ⟨si, rq⟩ <;>
          rw [hm3] at h
        · exact absurd h (by simp)
        · have h90 : [90] = rest := match_complete_iff.mp hm3
          simp only at h
          injection h with hv
          exact ⟨by rw [← h90], hv.symm⟩
        · exact absurd h (by simp)
        · exact absurd h (by simp)
      · rw [find_interior_partial_nochild hm rfl (by simp [find_child, hc])] at h
        exact absurd h (by simp)

/-- Claim C5: match_with classifies exactly as specified — Complete iff the
buffers are equal; PartialMatch iff the stored prefix is a strict prefix of
the probe, with the nonempty unmatched probe suffix; LongerPre iff the probe
is a strict prefix of the stored prefix, carrying the probe length; and
otherwise Incomplete with the smallest index at which the buffers differ and
the nonempty probe suffix from that index, respecting the tie-break
precedence. -/
theorem claim_C5_match_with_characterization (p : KeyPre) (q : KeyProbe) :
    (KeyPre.match_with p q = KeyMatchResult.Complete ↔ p = q) ∧
    (∀ r, KeyPre.match_with p q = KeyMatchResult.PartialMatch r ↔
      (p <+: q ∧ p ≠ q ∧ r = q.drop p.length ∧ r ≠ [])) ∧
    (∀ i, KeyPre.match_with p q = KeyMatchResult.LongerPre i ↔
      (q <+: p ∧ q ≠ p ∧ i = q.length)) ∧
    (∀ i r, KeyPre.match_with p q = KeyMatchResult.Incomplete i r ↔
      (¬ p <+: q ∧ ¬ (q <+: p ∧ q ≠ p) ∧ isLeastDiff p q i ∧
        r = q.drop i ∧ r ≠ [])) := by
  refine ⟨match_complete_iff, ?_, ?_, ?_⟩
  · intro r
    rw [match_partial_iff]
    constructor
    · rintro ⟨hp, hlen, hr⟩
      refine ⟨hp, ?_, hr, ?_⟩
      · intro he
        subst he
        omega
      · rw [hr]
        intro hnil
        have := List.drop_eq_nil_iff.mp hnil
        omega
    · rintro ⟨hp, hne, hr, hrne⟩
      refine ⟨hp, ?_, hr⟩
      have hle := hp.length_le
      rcases Nat.lt_or_ge p.length q.length with hlt | hge
      · exact hlt
      · exact absurd (hp.eq_of_length (by omega)) hne
  · intro i
    rw [match_longer_iff]
    constructor
    · rintro ⟨hq, hlen, hi⟩
      refine ⟨hq, ?_, hi⟩
      intro he
      subst he
      omega
    · rintro ⟨hq, hne, hi⟩
      refine ⟨hq, ?_, hi⟩
      have hle := hq.length_le
      rcases Nat.lt_or_ge q.length p.length with hlt | hge
      · exact hlt
      · exact absurd (hq.eq_of_length (by omega)) hne
  · intro i r
    constructor
    · intro h
      obtain ⟨hip, hiq, hne, hmin, hr, htake⟩ := match_incomplete_elim h
      have hgd : ∀ (a b : List Byte), a <+: b → ∀ j, j < a.length → j < b.length →
          a.getD j 0 = b.getD j 0 := by
        intro a b hab j hja hjb
        rw [List.getD_eq_getElem a 0 hja, List.getD_eq_getElem b 0 hjb]
        exact hab.getElem hja
      refine ⟨?_, ?_, ⟨?_, hmin⟩, hr, ?_⟩
      · intro hp
        exact hne (hgd p q hp i hip hiq)
      · rintro ⟨hq, -⟩
        exact hne (hgd q p hq i hiq hip).symm
      · unfold differAt
        exact Or.inr (Or.inr hne)
      · rw [hr]
        intro hnil
        have := List.drop_eq_nil_iff.mp hnil
        omega
    · rintro ⟨h1, h2, h3, hr, hrne⟩
      rw [hr]
      exact match_incomplete_intro h1 h2 h3

/-- Claim C5 witness: a concrete instance extracted through the
characterization. -/
theorem claim_C5_witness :
    KeyPre.match_with [1, 2] [1, 3] = KeyMatchResult.Incomplete 1 [3] := by
  refine (((claim_C5_match_with_characterization [1, 2] [1, 3]).2.2.2 1 [3]).mpr ?_)
  refine ⟨?_, ?_, ⟨?_, ?_⟩, ?_, ?_⟩ <;>
    simp [isLeastDiff, differAt, List.IsPrefix] <;> decide

/-- Claim C6: on any well-formed tree, insert returns the previous value
exactly when the key is present (it equals what get returns beforehand); in
particular a second insert of the same key returns the first value, leaves
the length unchanged, and a subsequent get returns the second value. -/
theorem claim_C6_insert_overwrite {V : Type} (t : RadixTree V) (k : List Byte)
    (v v1 v2 : V) (hw : t.wf = true) :
    (t.insert k v).2 = t.get k ∧
    ((t.insert k v1).1.insert k v2).2 = some v1 ∧
    ((t.insert k v1).1.insert k v2).1.len = (t.insert k v1).1.len ∧
    ((t.insert k v1).1.insert k v2).1.get k = some v2 := by
  have hw1 := tree_insert_wf t k v1 hw
  have hg1 := tree_insert_get_self t k v1 hw
  have hsnd := tree_insert_snd (t.insert k v1).1 k v2 hw1
  refine ⟨tree_insert_snd t k v hw, ?_, ?_, ?_⟩
  · rw [hsnd, hg1]
  · exact tree_insert_len_replaced _ k v2 (by rw [hsnd, hg1])
  · exact tree_insert_get_self _ k v2 hw1

/-- Claim C6 witness at a fresh tree with key [5]. -/
theorem claim_C6_insert_overwrite_witness :
    ((RadixTree.new : RadixTree Nat).insert [5] 7).2 =
      (RadixTree.new : RadixTree Nat).get [5] ∧
    (((RadixTree.new : RadixTree Nat).insert [5] 8).1.insert [5] 9).2 = some 8 ∧
    (((RadixTree.new : RadixTree Nat).insert [5] 8).1.insert [5] 9).1.len =
      ((RadixTree.new : RadixTree Nat).insert [5] 8).1.len ∧
    (((RadixTree.new : RadixTree Nat).insert [5] 8).1.insert [5] 9).1.get [5] =
      some 9 :=
  claim_C6_insert_overwrite RadixTree.new [5] 7 8 9 rfl

/-- Claim C7: removing a mapped key from a tree satisfying the size and
well-formedness invariant returns its value, shrinks the length by exactly
one, makes the key miss afterwards, and leaves every other key's lookup
unchanged. -/
theorem claim_C7_remove_present {V : Type} (t : RadixTree V) (k : List Byte)
    (v : V) (hinv : t.inv = true) (hget : t.get k = some v) :
    (t.remove k).2 = some v ∧
    (t.remove k).1.len + 1 = t.len ∧
    (t.remove k).1.get k = none ∧
    ∀ q, q ≠ k → (t.remove k).1.get q = t.get q := by
  have hw : t.wf = true := by
    unfold RadixTree.inv at hinv
    simp only [Bool.and_eq_true] at hinv
    exact hinv.1
  have hcount : (match t.root with | some r => entryCount r | none => 0) ≤ t.size := by
    unfold RadixTree.inv at hinv
    simp only [Bool.and_eq_true, decide_eq_true_eq] at hinv
    exact hinv.2
  have hsnd : (t.remove k).2 = some v := by
    rw [tree_remove_snd t k hw, hget]
  have hsize : 1 ≤ t.size := by
    cases hroot : t.root with
    | none =>
      rw [tree_get_eq_findOpt, hroot] at hget
      simp [findOpt] at hget
    | some r =>
      rw [tree_get_eq_findOpt, hroot] at hget
      simp only [findOpt] at hget
      have h1 := find_some_entryCount r k hget
      rw [hroot] at hcount
      have h2 : entryCount r ≤ t.size := hcount
      omega
  refine ⟨hsnd, ?_, tree_remove_get_self t k hw, tree_remove_get_other t k hw⟩
  have hlen := tree_remove_len_removed t k hsnd
  simp only [RadixTree.len] at hlen ⊢
  omega

/-- Claim C7 witness: removing the single key of a one-entry tree. -/
theorem claim_C7_remove_present_witness :
    (((RadixTree.new : RadixTree Nat).insert [5] 7).1.remove [5]).2 = some 7 ∧
    (((RadixTree.new : RadixTree Nat).insert [5] 7).1.remove [5]).1.len + 1 =
      ((RadixTree.new : RadixTree Nat).insert [5] 7).1.len ∧
    (((RadixTree.new : RadixTree Nat).insert [5] 7).1.remove [5]).1.get [5] = none ∧
    ∀ q, q ≠ [5] →
      (((RadixTree.new : RadixTree Nat).insert [5] 7).1.remove [5]).1.get q =
        ((RadixTree.new : RadixTree Nat).insert [5] 7).1.get q :=
  claim_C7_remove_present ((RadixTree.new : RadixTree Nat).insert [5] 7).1 [5] 7 rfl
    (by simp [RadixTree.insert, RadixTree.get, RadixTree.new, RadixNode.new_leaf,
      recursive_find, KeyPre.match_with, List.isPrefixOf])

/-- Claim C8: removing an absent key from a well-formed tree returns none
and leaves the tree literally unchanged, hence the length and every lookup
are unchanged. -/
theorem claim_C8_remove_absent {V : Type} (t : RadixTree V) (k : List Byte)
    (hw : t.wf = true) (hget : t.get k = none) :
    t.remove k = (t, none) ∧
    (t.remove k).1.len = t.len ∧
    ∀ q, (t.remove k).1.get q = t.get q := by
  have h := tree_remove_absent t k hw hget
  exact ⟨h, by rw [h], fun q => by rw [h]⟩

/-- Claim C8 witness: removing a missing key from a one-entry tree. -/
theorem claim_C8_remove_absent_witness :
    ((RadixTree.new : RadixTree Nat).insert [5] 7).1.remove [6] =
      (((RadixTree.new : RadixTree Nat).insert [5] 7).1, none) ∧
    (((RadixTree.new : RadixTree Nat).insert [5] 7).1.remove [6]).1.len =
      ((RadixTree.new : RadixTree Nat).insert [5] 7).1.len ∧
    ∀ q, (((RadixTree.new : RadixTree Nat).insert [5] 7).1.remove [6]).1.get q =
      ((RadixTree.new : RadixTree Nat).insert [5] 7).1.get q :=
  claim_C8_remove_absent ((RadixTree.new : RadixTree Nat).insert [5] 7).1 [6] rfl
    (by simp [RadixTree.insert, RadixTree.get, RadixTree.new, RadixNode.new_leaf,
      recursive_find, KeyPre.match_with, KeyPre.diff_index, List.isPrefixOf,
      List.range, List.range.loop])

/-- Claim C9: recursive_remove on an Interior subtree always returns Some of
an Interior node with the same stored prefix — removal never deletes,
collapses or merges an interior node, whatever the probe. -/
theorem claim_C9_remove_keeps_interior {V : Type} (pre : KeyPre)
    (cs : List (Byte × RadixNode V)) (ec : Option (RadixNode V)) (probe : KeyProbe) :
    ∃ cs' ec' rv,
      recursive_remove (RadixNode.Interior pre cs ec) probe =
        (some (RadixNode.Interior pre cs' ec'), rv) := by
  rcases hm : KeyPre.match_with pre probe with rp | - | si | ⟨si, rp⟩
  · rcases hpop : KeyProbe.pop rp with _ | ⟨c, rest⟩
    · cases ec with
      | none =>
        refine ⟨cs, none, none, ?_⟩
        simp only [recursive_remove, hm, hpop]
      | some n2 =>
        refine ⟨cs, some n2, none, ?_⟩
        simp only [recursive_remove, hm, hpop]
    · rcases hrc : (remove_child_list cs c).2 with _ | child
      · refine ⟨cs, ec, none, ?_⟩
        rw [remove_interior_partial_nochild hm hpop hrc]
      · rw [remove_interior_partial_child hm hpop hrc]
        rcases hupd : (recursive_remove child rest).1 with _ | u
        · exact ⟨(remove_child_list cs c).1, ec, (recursive_remove child rest).2,
            by simp [reinstall_child, hupd]⟩
        · exact ⟨(insert_child_list (remove_child_list cs c).1 c u).1, ec,
            (recursive_remove child rest).2, by simp [reinstall_child, hupd]⟩
  · cases ec with
    | none =>
      refine ⟨cs, none, none, ?_⟩
      rw [remove_interior_complete_none hm]
    | some old =>
      refine ⟨cs, (recursive_remove old []).1, (recursive_remove old []).2, ?_⟩
      rw [remove_interior_complete_some hm]
  · refine ⟨cs, ec, none, ?_⟩
    rw [remove_interior_longer hm]
  · refine ⟨cs, ec, none, ?_⟩
    rw [remove_interior_incomplete hm]

/-- Claim C9 witness: removing the only key below an interior node keeps the
interior node (with its prefix) alive. -/
theorem claim_C9_witness :
    ∃ cs' ec' rv,
      recursive_remove
        (RadixNode.Interior [104]
          [(97, RadixNode.Leaf { key := [104, 97], value := (1 : Nat) } [])] none)
        [104, 97] =
        (some (RadixNode.Interior [104] cs' ec'), rv) :=
  claim_C9_remove_keeps_interior [104]
    [(97, RadixNode.Leaf { key := [104, 97], value := (1 : Nat) } [])] none [104, 97]

/-- Claim C10: the two pop helpers consume opposite ends — KeyPre pop
removes and returns the last byte, KeyProbe pop the first byte, and both
return none exactly on the empty buffer. -/
theorem claim_C10_pop_opposite_ends (p : KeyPre) (q : KeyProbe) :
    (∀ b r, KeyPre.pop p = some (b, r) ↔ p = r ++ [b]) ∧
    (KeyPre.pop p = none ↔ p = []) ∧
    (∀ b r, KeyProbe.pop q = some (b, r) ↔ q = b :: r) ∧
    (KeyProbe.pop q = none ↔ q = []) :=
  ⟨fun _ _ => keypre_pop_some_iff, keypre_pop_none_iff,
   fun _ _ => keyprobe_pop_some_iff, keyprobe_pop_none_iff⟩

/-- Claim C10 witness at the concrete buffer [1, 2, 3]. -/
theorem claim_C10_witness :
    KeyPre.pop [1, 2, 3] = some (3, [1, 2]) ∧
    KeyProbe.pop [1, 2, 3] = some (1, [2, 3]) :=
  ⟨((claim_C10_pop_opposite_ends [1, 2, 3] [1, 2, 3]).1 3 [1, 2]).mpr rfl,
   ((claim_C10_pop_opposite_ends [1, 2, 3] [1, 2, 3]).2.2.1 1 [2, 3]).mpr rfl⟩
